import Mathlib

/-!
# Verification of the dataspecs library

A shallow embedding, in Lean 4, of the core of the `dataspecs` Python library:
the path/identifier model (`pathlib.PurePosixPath` restricted to rooted paths),
the recursive type-hint walker (`from_dataclass` / `from_typehint`), the
`Specs` collection with its polymorphic selection, and the specifier/merge
machinery.  The repository holds several coexisting revisions of the same
design; where two revisions of a function differ, both are embedded and named
after the module they come from (`core/api.py` versus `api.py`, and so on).

Conventions of the embedding:
- Python strings are `String`, lists are `List`, `None` is an explicit
  constructor of the value universe.
- Raising an exception is returning `Except.error` with the exception message.
- `pathlib.PurePosixPath` is embedded as `PPath` (a root marker plus the
  parsed segments), with the standard-library parsing rules: components that
  are empty or `"."` are dropped, and a path that begins with exactly two
  slashes keeps the double-slash root `"//"`.
-/

/-! ## PurePosixPath -/

/-- Embedding of `pathlib.PurePosixPath`: the root (`""`, `"/"` or `"//"`)
and the parsed segments. -/
structure PPath where
  root : String
  segs : List String
deriving DecidableEq, Repr

/-- Split a character list at `'/'` into the component strings. -/
def splitSlash (cs : List Char) (acc : List Char) : List String :=
  match cs with
  | [] => [String.mk acc.reverse]
  | '/' :: rest => String.mk acc.reverse :: splitSlash rest []
  | c :: rest => splitSlash rest (c :: acc)

/-- The root marker of a POSIX path string: `"//"` for exactly two leading
slashes, `"/"` for one (or three and more), `""` for a relative path. -/
def rootOf (s : String) : String :=
  match s.toList with
  | '/' :: '/' :: '/' :: _ => "/"
  | '/' :: '/' :: _ => "//"
  | '/' :: _ => "/"
  | _ => ""

/-- Parse one string the way `PurePosixPath` parses a single argument:
a path starting with exactly two slashes has root `"//"`, one starting
with a slash has root `"/"`, otherwise the path is relative; empty
components and `"."` components are dropped. -/
def parsePP (s : String) : PPath :=
  ⟨rootOf s, (splitSlash s.toList []).filter (fun t => t ≠ "" && t ≠ ".")⟩

/-- Join two parsed paths (`PurePosixPath.__truediv__` / multi-argument
construction): an absolute right operand replaces the left one. -/
def joinPP (p q : PPath) : PPath :=
  if q.root ≠ "" then q else ⟨p.root, p.segs ++ q.segs⟩

/-- `PurePosixPath(*segments)`: fold the arguments left to right starting
from the empty (relative) path. -/
def parseMany (segs : List String) : PPath :=
  segs.foldl (fun p s => joinPP p (parsePP s)) ⟨"", []⟩

/-- `p / s` on paths (append one string, as the walker does with field
names and subtype indices). -/
def pjoin (p : PPath) (s : String) : PPath :=
  joinPP p (parsePP s)

/-- `str(path)` / `os.fspath(path)`: the canonical string of a parsed path
(`"."` for the empty relative path). -/
def PPath.render (p : PPath) : String :=
  if p.root = "" && p.segs = [] then "." else p.root ++ String.intercalate "/" p.segs

/-- `PurePosixPath.name`: the last segment, `""` when there is none. -/
def PPath.lastName (p : PPath) : String :=
  (p.segs.getLast?).getD ""

/-- The root path `/` (constant `ROOT` of the library). -/
def rootPP : PPath := ⟨"/", []⟩

/-- `os.path.normpath` for POSIX paths, as `posixpath.normpath`: drops empty
and `"."` components, resolves `".."` against a preceding component, keeps a
double-slash root.  Used by the `Spec.__post_init__` of the specifier
revision (`dataspecs/specs.py`). -/
def normpath (s : String) : String :=
  if s = "" then "." else
  let slashes := rootOf s
  let newComps := (splitSlash s.toList []).foldl
    (fun (acc : List String) comp =>
      if comp = "" || comp = "." then acc
      else if comp ≠ ".." || (slashes = "" && acc = []) || acc.head? = some ".." then
        comp :: acc
      else if acc ≠ [] then acc.tail
      else acc)
    []
  let path := slashes ++ String.intercalate "/" newComps.reverse
  if path = "" then "." else path

/-! ## Regular expressions (the fragment of Python `re` the library uses)

`Path.match` (`core/specs.py`) full-matches an arbitrary regular expression;
`ID.matches` (`typing.py`) first translates a glob dialect into a regular
expression.  The patterns the library builds and documents use literals,
`.`, `*` (postfix star), and character classes `[...]` / `[^...]`; the
embedding covers exactly that fragment, with an explicit parser, and a
derivative-based matcher proved equivalent to the declarative language
semantics. -/

/-- Regular expressions over characters. -/
inductive Regex where
  | emp
  | eps
  | chr (c : Char)
  | anyc
  | cls (neg : Bool) (cs : List Char)
  | cat (r₁ r₂ : Regex)
  | alt (r₁ r₂ : Regex)
  | star (r : Regex)
deriving DecidableEq, Repr

/-- Does a character class (negated or not) accept a character. -/
def clsMatch (neg : Bool) (cs : List Char) (c : Char) : Bool :=
  if neg then !(cs.contains c) else cs.contains c

/-- Does the regular expression accept the empty string. -/
def nullable : Regex → Bool
  | .emp => false
  | .eps => true
  | .chr _ => false
  | .anyc => false
  | .cls _ _ => false
  | .cat r₁ r₂ => nullable r₁ && nullable r₂
  | .alt r₁ r₂ => nullable r₁ || nullable r₂
  | .star _ => true

/-- Brzozowski derivative by one character. -/
def rderiv (c : Char) : Regex → Regex
  | .emp => .emp
  | .eps => .emp
  | .chr a => if a = c then .eps else .emp
  | .anyc => if c = '\n' then .emp else .eps
  | .cls neg cs => if clsMatch neg cs c then .eps else .emp
  | .cat r₁ r₂ =>
      if nullable r₁ then .alt (.cat (rderiv c r₁) r₂) (rderiv c r₂)
      else .cat (rderiv c r₁) r₂
  | .alt r₁ r₂ => .alt (rderiv c r₁) (rderiv c r₂)
  | .star r => .cat (rderiv c r) (.star r)

/-- `re.fullmatch`: the whole character list is accepted. -/
def fullmatch (r : Regex) (s : List Char) : Bool :=
  nullable (s.foldl (fun r c => rderiv c r) r)

/-- Declarative language semantics of `Regex` (Python `re` semantics on the
embedded fragment: `.` matches any character but a newline). -/
inductive RMatch : Regex → List Char → Prop where
  | eps : RMatch .eps []
  | chr (c : Char) : RMatch (.chr c) [c]
  | anyc (c : Char) : c ≠ '\n' → RMatch .anyc [c]
  | cls (neg : Bool) (cs : List Char) (c : Char) :
      clsMatch neg cs c = true → RMatch (.cls neg cs) [c]
  | cat (r₁ r₂ : Regex) (s₁ s₂ : List Char) :
      RMatch r₁ s₁ → RMatch r₂ s₂ → RMatch (.cat r₁ r₂) (s₁ ++ s₂)
  | altL (r₁ r₂ : Regex) (s : List Char) : RMatch r₁ s → RMatch (.alt r₁ r₂) s
  | altR (r₁ r₂ : Regex) (s : List Char) : RMatch r₂ s → RMatch (.alt r₁ r₂) s
  | star0 (r : Regex) : RMatch (.star r) []
  | stars (r : Regex) (s₁ s₂ : List Char) :
      RMatch r s₁ → RMatch (.star r) s₂ → RMatch (.star r) (s₁ ++ s₂)

/-- Parser state: scanning atoms, after a backslash, just after `[`, or
inside a class body. -/
inductive PMode where
  | norm
  | esc
  | clsOpen
  | clsAcc (neg : Bool) (acc : List Char)

/-- Parse the pattern fragment: literals, `\\`-escapes, `.`, postfix `*`,
and `[...]` / `[^...]` classes.  The accumulator holds the parsed atoms in
reverse; a dangling `*`, an unterminated class or a trailing backslash is
a `re.error`, rendered as `none`. -/
def parseGo : List Char → List Regex → PMode → Option (List Regex)
  | [], atoms, .norm => some atoms
  | [], _, _ => none
  | c :: rest, atoms, .norm =>
    if c = '*' then
      match atoms with
      | a :: as => parseGo rest (Regex.star a :: as) .norm
      | [] => none
    else if c = '.' then parseGo rest (Regex.anyc :: atoms) .norm
    else if c = '[' then parseGo rest atoms .clsOpen
    else if c = '\\' then parseGo rest atoms .esc
    else parseGo rest (Regex.chr c :: atoms) .norm
  | c :: rest, atoms, .esc => parseGo rest (Regex.chr c :: atoms) .norm
  | c :: rest, atoms, .clsOpen =>
    if c = '^' then parseGo rest atoms (.clsAcc true [])
    else if c = ']' then parseGo rest (Regex.cls false [] :: atoms) .norm
    else parseGo rest atoms (.clsAcc false [c])
  | c :: rest, atoms, .clsAcc neg acc =>
    if c = ']' then parseGo rest (Regex.cls neg acc.reverse :: atoms) .norm
    else parseGo rest atoms (.clsAcc neg (c :: acc))

/-- Compile a pattern string to a `Regex` (`re.compile` on the fragment). -/
def parseRegex (s : String) : Option Regex :=
  (parseGo s.toList [] .norm).map fun acc =>
    match acc.reverse with
    | [] => .eps
    | a :: rest => rest.foldl .cat a

/-- The glob-to-regex substitution of `ID.matches` (`typing.py`):
`GLOB_PATTERN = r"\*\*()|\*([^\*]|$)"` with replacements `".*"` for `**`
and `"[^/]*"` for a single `*`, scanning left to right without overlap
(`re.sub`). -/
def globSub : List Char → List Char
  | '*' :: '*' :: rest => '.' :: '*' :: globSub rest
  | ['*'] => '[' :: '^' :: '/' :: ']' :: '*' :: []
  | '*' :: c :: rest => '[' :: '^' :: '/' :: ']' :: '*' :: c :: globSub rest
  | c :: rest => c :: globSub rest
  | [] => []

/-- `ID.matches(path_pattern)` of `typing.py`: translate the glob dialect,
then `re.fullmatch` the result against `str(self)`.  An uncompilable
pattern is a raised `re.error`, rendered as `none`. -/
def ID.matches (p : PPath) (pat : String) : Option Bool :=
  (parseRegex (String.mk (globSub pat.toList))).map
    fun r => fullmatch r p.render.toList

/-- `Path.match(pattern)` of `core/specs.py`: `re.fullmatch` of the pattern
itself against `str(self)`. -/
def Path.matchRe (p : PPath) (pat : String) : Option Bool :=
  (parseRegex pat).map fun r => fullmatch r p.render.toList

/-- `ID(*segments)` of `typing.py`: parse like `PurePosixPath`, then raise
`ValueError("ID must start with the root.")` when `self.root` is falsy
(the empty string). -/
def ID.mk (segments : List String) : Except String PPath :=
  let p := parseMany segments
  if p.root = "" then .error "ID must start with the root." else .ok p

/-- `Path.__new__` of `core/specs.py`: raise
`ValueError("Path must start with the root (/).")` when
`PurePosixPath(*segments).root != "/"`. -/
def Path.mkCore (segments : List String) : Except String PPath :=
  let p := parseMany segments
  if p.root ≠ "/" then .error "Path must start with the root (/)." else .ok p

/-! ## Type hints, annotations, dataclass objects and runtime values

The walker's input universe: a Python type hint is a bare class, a generic
alias (`list[...]`, `dict[...]`, ...), a `Literal[...]`, a union (whose
argument list is non-empty by construction, as in `typing`), or an
`Annotated[inner, *anns]` wrapper; an annotation is a tag (a `TagBase` enum
member), a dataclass object, or some other object; a dataclass object has a
class name and fields, each carrying its name, type hint, resolved data
(`getattr(obj, name, field.default)`) and field metadata. -/

/-- A `TagBase` enum member: its enum class name, the class's bases, and
the member name. -/
structure TagV where
  cls : String
  bases : List String
  member : String
deriving DecidableEq, Repr

mutual
inductive Hint where
  | base (name : String) (bases : List String)
  | app (name : String) (args : List Hint)
  | lit
  | union (arm : Hint) (arms : List Hint)
  | ann (inner : Hint) (anns : List Ann)

inductive Ann where
  | tag (t : TagV)
  | dc (d : DCls)
  | other (s : String)

inductive DCls where
  | mk (name : String) (fields : List FieldD)

inductive FieldD where
  | mk (fname : String) (ftype : Hint) (fdata : Value) (fmeta : List (String × Value))

inductive Value where
  | vnone
  | vstr (s : String)
  | vnat (n : Nat)
  | vlist (vs : List Value)
  | vdc (d : DCls)
end

def DCls.name : DCls → String
  | .mk n _ => n

def DCls.fields : DCls → List FieldD
  | .mk _ fs => fs

def FieldD.fname : FieldD → String
  | .mk n _ _ _ => n

def FieldD.ftype : FieldD → Hint
  | .mk _ t _ _ => t

def FieldD.fdata : FieldD → Value
  | .mk _ _ d _ => d

def FieldD.fmeta : FieldD → List (String × Value)
  | .mk _ _ _ m => m

/-- `type(obj)` of a dataclass object, as a type hint (its class). -/
def DCls.clsHint (d : DCls) : Hint := .base d.name ["object"]

/-! ### The helpers of `core/typing.py` -/

/-- `Annotated[h, a]`: `typing.Annotated` flattens a nested `Annotated`
into one wrapper with the annotations concatenated. -/
def mkAnnotated (h : Hint) (a : Ann) : Hint :=
  match h with
  | .ann inner as => .ann inner (as ++ [a])
  | _ => .ann h [a]

/-- `get_annotated(obj)` (non-recursive): the annotated type of an
`Annotated[...]` hint, the hint itself otherwise. -/
def get_annotated (h : Hint) : Hint :=
  match h with
  | .ann inner _ => inner
  | _ => h

mutual
/-- `get_annotated(obj, recursive=True)` = `typing._strip_annotations`:
strip `Annotated[...]` wrappers everywhere, including inside generic
aliases and unions. -/
def stripAnns : Hint → Hint
  | .ann i _ => stripAnns i
  | .app n args => .app n (stripAnnsList args)
  | .union a as => .union (stripAnns a) (stripAnnsList as)
  | .base n bs => .base n bs
  | .lit => .lit

def stripAnnsList : List Hint → List Hint
  | [] => []
  | h :: t => stripAnns h :: stripAnnsList t
end

/-- `get_annotations(obj)`: the annotation objects of an `Annotated[...]`
hint, `()` otherwise. -/
def get_annotations (h : Hint) : List Ann :=
  match h with
  | .ann _ as => as
  | _ => []

/-- `get_tags(obj)`: the annotations that are `TagBase` members. -/
def get_tags (h : Hint) : List TagV :=
  (get_annotations h).filterMap fun a =>
    match a with
    | .tag t => some t
    | _ => none

/-- `get_dataclasses(obj)`: the annotations that are dataclass objects. -/
def get_dataclasses (h : Hint) : List DCls :=
  (get_annotations h).filterMap fun a =>
    match a with
    | .dc d => some d
    | _ => none

/-- Modelled from the spec: `get_meta` is imported by `core/api.py` from
`core/typing.py` but its definition is not among the source files; per the
spec's data model its result is the "raw leftover annotation objects"
(`metadata`), i.e. the annotations that are neither tags nor embedded
dataclass objects.  It only populates the inert `meta` attribute of a
spec. -/
def get_meta (h : Hint) : List Ann :=
  (get_annotations h).filter fun a =>
    match a with
    | .tag _ => false
    | .dc _ => false
    | .other _ => true

/-- `get_first(obj)` of `core/typing.py`: take the first union arm of the
annotated type (the annotated type itself when it is not a union), then
re-wrap it in the outer annotations one by one. -/
def get_first (h : Hint) : Hint :=
  let annotated := get_annotated h
  let first :=
    match annotated with
    | .union a _ => a
    | _ => annotated
  (get_annotations h).foldl mkAnnotated first

/-- `get_subtypes(obj)`: the subscriptions (`get_args`) of the annotated
type, `()` for a `Literal[...]` (which terminates recursion); a bare class
has none.  A doubly nested `Annotated` cannot arise in Python (`Annotated`
flattens on construction); that unreachable case is mapped to `[]`. -/
def get_subtypes (h : Hint) : List Hint :=
  match get_annotated h with
  | .lit => []
  | .app _ args => args
  | .union a as => a :: as
  | _ => []

/-! ### A size measure for the walker's termination -/

mutual
def hintSize : Hint → Nat
  | .base _ _ => 1
  | .app _ args => 1 + hintListSize args
  | .lit => 1
  | .union a as => 1 + hintSize a + hintListSize as
  | .ann i as => 1 + hintSize i + annListSize as

def hintListSize : List Hint → Nat
  | [] => 0
  | h :: t => hintSize h + hintListSize t

def annSize : Ann → Nat
  | .tag _ => 1
  | .dc d => 1 + dclsSize d
  | .other _ => 1

def annListSize : List Ann → Nat
  | [] => 0
  | a :: t => annSize a + annListSize t

def dclsSize : DCls → Nat
  | .mk _ fs => 1 + fieldListSize fs

def fieldSize : FieldD → Nat
  | .mk _ t _ _ => 1 + hintSize t

def fieldListSize : List FieldD → Nat
  | [] => 0
  | f :: t => fieldSize f + fieldListSize t
end

theorem annListSize_append (l₁ l₂ : List Ann) :
    annListSize (l₁ ++ l₂) = annListSize l₁ + annListSize l₂ := by
  induction l₁ with
  | nil => simp [annListSize]
  | cons a t ih => simp [annListSize, ih] <;> omega

theorem hintSize_pos (h : Hint) : 1 ≤ hintSize h := by
  cases h <;> simp [hintSize] <;> omega

theorem annSize_pos (a : Ann) : 1 ≤ annSize a := by
  cases a <;> simp [annSize]

theorem hintSize_mem (h : Hint) (l : List Hint) (hm : h ∈ l) :
    hintSize h ≤ hintListSize l := by
  induction l with
  | nil => cases hm
  | cons x t ih =>
    rcases List.mem_cons.mp hm with rfl | hm
    · simp [hintListSize] <;> omega
    · have := ih hm; simp [hintListSize] <;> omega

theorem annSize_mem (a : Ann) (l : List Ann) (hm : a ∈ l) :
    annSize a ≤ annListSize l := by
  induction l with
  | nil => cases hm
  | cons x t ih =>
    rcases List.mem_cons.mp hm with rfl | hm
    · simp [annListSize] <;> omega
    · have := ih hm; simp [annListSize] <;> omega

theorem fieldSize_mem (f : FieldD) (l : List FieldD) (hm : f ∈ l) :
    fieldSize f ≤ fieldListSize l := by
  induction l with
  | nil => cases hm
  | cons x t ih =>
    rcases List.mem_cons.mp hm with rfl | hm
    · simp [fieldListSize] <;> omega
    · have := ih hm; simp [fieldListSize] <;> omega

theorem hintSize_foldl_ann (l : List Ann) (i : Hint) (bs : List Ann) :
    hintSize (l.foldl mkAnnotated (.ann i bs)) =
      1 + hintSize i + annListSize bs + annListSize l := by
  induction l generalizing bs with
  | nil => simp [annListSize, hintSize]
  | cons a t ih =>
    rw [List.foldl_cons, show mkAnnotated (Hint.ann i bs) a = .ann i (bs ++ [a]) from rfl, ih]
    simp [annListSize, annListSize_append] <;> omega

theorem hintSize_foldl_mkAnnotated (l : List Ann) (f : Hint) :
    hintSize (l.foldl mkAnnotated f) ≤ 1 + hintSize f + annListSize l := by
  cases l with
  | nil => simp [annListSize] <;> omega
  | cons a t =>
    rw [List.foldl_cons]
    cases f with
    | ann i bs =>
      rw [show mkAnnotated (Hint.ann i bs) a = .ann i (bs ++ [a]) from rfl, hintSize_foldl_ann]
      simp [hintSize, annListSize, annListSize_append] <;> omega
    | base n b =>
      rw [show mkAnnotated (Hint.base n b) a = .ann (.base n b) [a] from rfl, hintSize_foldl_ann]
      simp [annListSize] <;> omega
    | app n args =>
      rw [show mkAnnotated (Hint.app n args) a = .ann (.app n args) [a] from rfl, hintSize_foldl_ann]
      simp [annListSize] <;> omega
    | lit =>
      rw [show mkAnnotated Hint.lit a = .ann .lit [a] from rfl, hintSize_foldl_ann]
      simp [annListSize] <;> omega
    | union x xs =>
      rw [show mkAnnotated (Hint.union x xs) a = .ann (.union x xs) [a] from rfl, hintSize_foldl_ann]
      simp [annListSize] <;> omega

theorem hintSize_get_first (h : Hint) : hintSize (get_first h) ≤ hintSize h := by
  cases h with
  | ann inner as =>
    cases inner with
    | union a arms =>
      have h1 : get_first (Hint.ann (Hint.union a arms) as) = as.foldl mkAnnotated a := by
        unfold get_first; rfl
      have h2 := hintSize_foldl_mkAnnotated as a
      rw [h1]; simp only [hintSize]; omega
    | base n bs =>
      have h1 : get_first (Hint.ann (Hint.base n bs) as) =
          as.foldl mkAnnotated (Hint.base n bs) := by unfold get_first; rfl
      have h2 := hintSize_foldl_mkAnnotated as (Hint.base n bs)
      rw [h1]; simp only [hintSize] at *; omega
    | lit =>
      have h1 : get_first (Hint.ann Hint.lit as) =
          as.foldl mkAnnotated Hint.lit := by unfold get_first; rfl
      have h2 := hintSize_foldl_mkAnnotated as Hint.lit
      rw [h1]; simp only [hintSize] at *; omega
    | app n args =>
      have h1 : get_first (Hint.ann (Hint.app n args) as) =
          as.foldl mkAnnotated (Hint.app n args) := by unfold get_first; rfl
      have h2 := hintSize_foldl_mkAnnotated as (Hint.app n args)
      rw [h1]; simp only [hintSize] at *; omega
    | ann i bs =>
      have h1 : get_first (Hint.ann (Hint.ann i bs) as) =
          as.foldl mkAnnotated (Hint.ann i bs) := by unfold get_first; rfl
      have h2 := hintSize_foldl_mkAnnotated as (Hint.ann i bs)
      rw [h1]; simp only [hintSize] at *; omega
  | base n bs => simp [get_first, get_annotated, get_annotations, List.foldl]
  | lit => simp [get_first, get_annotated, get_annotations, List.foldl]
  | app n args => simp [get_first, get_annotated, get_annotations, List.foldl]
  | union a as =>
    have : get_first (Hint.union a as) = a := by unfold get_first; rfl
    rw [this]
    simp [hintSize]
    have := hintSize_pos a
    omega

theorem hintSize_get_annotated (h : Hint) : hintSize (get_annotated h) ≤ hintSize h := by
  cases h <;> simp [get_annotated, hintSize] <;> omega

theorem hintSize_get_subtypes (s : Hint) (f : Hint) (hm : s ∈ get_subtypes f) :
    hintSize s < hintSize f := by
  have hann := hintSize_get_annotated f
  unfold get_subtypes at hm
  rcases hga : get_annotated f with n | ⟨n, args⟩ | _ | ⟨a, as⟩ | _ <;> rw [hga] at hm
  · cases hm
  · have : hintSize s ≤ hintListSize args := hintSize_mem _ _ hm
    have : hintSize (get_annotated f) = 1 + hintListSize args := by rw [hga]; simp [hintSize]
    omega
  · cases hm
  · rcases List.mem_cons.mp hm with rfl | hm
    · have : hintSize (get_annotated f) = 1 + hintSize s + hintListSize as := by
        rw [hga]; simp [hintSize]
      omega
    · have : hintSize s ≤ hintListSize as := hintSize_mem _ _ hm
      have : hintSize (get_annotated f) = 1 + hintSize a + hintListSize as := by
        rw [hga]; simp [hintSize]
      have := hintSize_pos a
      omega
  · cases hm

theorem dclsSize_get_dataclasses (d : DCls) (f : Hint) (hm : d ∈ get_dataclasses f) :
    dclsSize d < hintSize f := by
  unfold get_dataclasses at hm
  rcases List.mem_filterMap.mp hm with ⟨a, ha, hda⟩
  have hsz : annSize a ≤ annListSize (get_annotations f) := annSize_mem _ _ ha
  have hda' : a = .dc d := by
    cases a <;> simp_all
  subst hda'
  cases f with
  | ann i as =>
    simp only [get_annotations] at hsz
    have := hintSize_pos i
    simp [hintSize, annSize] at *
    omega
  | base n bs => simp [get_annotations] at ha
  | lit => simp [get_annotations] at ha
  | app n args => simp [get_annotations] at ha
  | union a as => simp [get_annotations] at ha

theorem hintSize_field (fld : FieldD) (d : DCls) (hm : fld ∈ d.fields) :
    hintSize fld.ftype < dclsSize d := by
  have := fieldSize_mem _ _ hm
  have : fieldSize fld = 1 + hintSize fld.ftype := by
    cases fld; simp [fieldSize, FieldD.ftype]
  cases d
  simp [dclsSize, DCls.fields] at *
  omega

theorem enum_snd_mem {α : Type _} (p : Nat × α) (l : List α) (hm : p ∈ l.enum) :
    p.2 ∈ l := by
  have := List.mem_enum_iff_getElem?.mp hm
  exact List.getElem?_mem this

/-! ### `named_enumerate` and `decamelize` -/

/-- Helper of `decamelize`: lower-case every character, inserting an
underscore before a non-initial upper-case character. -/
def decamelizeGo : List Char → Bool → List Char
  | [], _ => []
  | c :: t, first =>
    if c.isUpper && !first then '_' :: c.toLower :: decamelizeGo t false
    else c.toLower :: decamelizeGo t false

/-- `humps.decamelize` (a library dependency), modelled on the simple
CamelCase class names the walker feeds it. -/
def decamelize (s : String) : String :=
  String.mk (decamelizeGo s.toList true)

/-- Helper of `named_enumerate`: `counts` is the precomputed
`Counter(type(obj) for obj in iterable)` (classes keyed by name), `idx`
the running per-class `defaultdict(int)` index. -/
def namedEnumGo (counts : String → Nat) :
    List DCls → (String → Nat) → List (String × DCls)
  | [], _ => []
  | d :: rest, idx =>
    if counts d.name = 1 then
      (decamelize d.name, d) :: namedEnumGo counts rest idx
    else
      (decamelize d.name ++ "_" ++ toString (idx d.name), d) ::
        namedEnumGo counts rest (fun n => if n = d.name then idx n + 1 else idx n)

/-- `named_enumerate` of `core/api.py`: enumerate dataclass objects under
their snake-cased class names, suffixing `_0`, `_1`, ... when the same
class occurs more than once.  (Python counts by the class object itself;
classes are keyed here by their name.) -/
def named_enumerate (ds : List DCls) : List (String × DCls) :=
  namedEnumGo (fun n => (ds.filter (fun d => d.name = n)).length) ds (fun _ => 0)

theorem namedEnumGo_mem (counts : String → Nat) (l : List DCls)
    (idx : String → Nat) (p : String × DCls) (hm : p ∈ namedEnumGo counts l idx) :
    p.2 ∈ l := by
  induction l generalizing idx with
  | nil => simp [namedEnumGo] at hm
  | cons d rest ih =>
    unfold namedEnumGo at hm
    by_cases hc : counts d.name = 1
    · rw [if_pos hc] at hm
      rcases List.mem_cons.mp hm with rfl | hm
      · exact List.mem_cons_self _ _
      · exact List.mem_cons_of_mem _ (ih _ hm)
    · rw [if_neg hc] at hm
      rcases List.mem_cons.mp hm with rfl | hm
      · exact List.mem_cons_self _ _
      · exact List.mem_cons_of_mem _ (ih _ hm)

theorem named_enumerate_mem (ds : List DCls) (p : String × DCls)
    (hm : p ∈ named_enumerate ds) : p.2 ∈ ds :=
  namedEnumGo_mem _ _ _ _ hm

/-! ### The walker of `core/api.py` -/

/-- The data spec record built by `core/api.py` (its `spec_factory` call:
`id`, `tags`, annotation-stripped `type`, `data`, `meta`). -/
structure CSpec where
  id : PPath
  tags : List TagV
  type : Hint
  data : Value
  meta : List Ann

mutual
/-- `from_typehint` of `core/api.py`: compute `first := get_first(obj)`
once, then build the node's spec and recurse from `first`
(`walk_first`). -/
def from_typehint (h : Hint) (id : PPath) (parentData : Value) : List CSpec :=
  walk_first (get_first h) id parentData
termination_by 2 * hintSize h + 1
decreasing_by
  have := hintSize_get_first h
  omega

/-- The body of `from_typehint` after `first := get_first(obj)`: one spec
for the hint itself, then the specs of the subtypes (at child ids
`id/0`, `id/1`, ...), then the specs of the annotation dataclass objects
(at child ids named by `named_enumerate`). -/
def walk_first (first : Hint) (id : PPath) (parentData : Value) : List CSpec :=
  (⟨id, get_tags first, stripAnns first, parentData, get_meta first⟩ : CSpec)
  :: (((get_subtypes first).enum.attach.map
        (fun x => from_typehint x.1.2 (pjoin id (toString x.1.1)) Value.vnone)).flatten
      ++ ((named_enumerate (get_dataclasses first)).attach.map
        (fun x => from_dataclass x.1.2 (pjoin id x.1.1))).flatten)
termination_by 2 * hintSize first
decreasing_by
  · have := hintSize_get_subtypes x.1.2 first (enum_snd_mem _ _ x.2)
    omega
  · have := dclsSize_get_dataclasses x.1.2 first (named_enumerate_mem _ _ x.2)
    omega

/-- `from_dataclass` of `core/api.py`: one spec for the dataclass object
itself, then, for each field in declaration order, the specs of the
field's type hint at `id/field_name` with the field's resolved data
(`getattr(obj, field.name, field.default)`, carried by the field model).
The `ID(id)` revalidation of an already-parsed rooted path is the
identity; the rooting check itself is embedded as `ID.mk`. -/
def from_dataclass (obj : DCls) (id : PPath) : List CSpec :=
  (⟨id, [], obj.clsHint, Value.vdc obj, []⟩ : CSpec)
  :: (obj.fields.attach.map
        (fun f => from_typehint f.1.ftype (pjoin id f.1.fname) f.1.fdata)).flatten
termination_by 2 * dclsSize obj
decreasing_by
  have := hintSize_field f.1 obj f.2
  omega
end

/-! ### The walker of `api.py` (the flat revision paired with
`core/specs.py`-style specs: `path`, `name`, `tags`, `type`, `data`,
`anns`, `meta`, `orig`) -/

/-- The `orig` attribute: `None`, the parent type hint, or the parent
dataclass object. -/
inductive Orig where
  | none
  | hint (h : Hint)
  | obj (d : DCls)

/-- The data spec record of `core/specs.py` (`Spec`), as built by
`api.py`. -/
structure PSpec where
  path : PPath
  name : String
  tags : List TagV
  type : Hint
  data : Value
  anns : List Ann
  meta : List (String × Value)
  orig : Orig

mutual
/-- `from_typehint` of `api.py`. -/
def api_from_typehint (h : Hint) (path : PPath) (data : Value)
    (meta : List (String × Value)) (orig : Orig) : List PSpec :=
  api_walk_first h (get_first h) path data meta orig
termination_by 2 * hintSize h + 1
decreasing_by
  have := hintSize_get_first h
  omega

/-- The body of `api.py`'s `from_typehint` after `first := get_first(obj)`:
the node's spec, the subtype specs at `path/0`, `path/1`, ... (with
`orig = obj`), then for every annotation that is a dataclass object a
recursion via `from_dataclass` at the *same* `path`. -/
def api_walk_first (h : Hint) (first : Hint) (path : PPath) (data : Value)
    (meta : List (String × Value)) (orig : Orig) : List PSpec :=
  (⟨path, path.lastName, get_tags first, stripAnns first, data,
      get_annotations first, meta, orig⟩ : PSpec)
  :: (((get_subtypes first).enum.attach.map
        (fun x => api_from_typehint x.1.2 (pjoin path (toString x.1.1))
          Value.vnone [] (.hint h))).flatten
      ++ ((get_dataclasses first).attach.map
        (fun x => api_from_dataclass x.1 path)).flatten)
termination_by 2 * hintSize first
decreasing_by
  · have := hintSize_get_subtypes x.1.2 first (enum_snd_mem _ _ x.2)
    omega
  · have := dclsSize_get_dataclasses x.1 first x.2
    omega

/-- `from_dataclass` of `api.py`: no spec for the object itself; for each
field in declaration order, the specs of the field's type hint at
`path/field_name`, with the field's resolved data and metadata and
`orig = obj`. -/
def api_from_dataclass (obj : DCls) (path : PPath) : List PSpec :=
  (obj.fields.attach.map
    (fun f => api_from_typehint f.1.ftype (pjoin path f.1.fname) f.1.fdata
      f.1.fmeta (.obj obj))).flatten
termination_by 2 * dclsSize obj
decreasing_by
  have := hintSize_field f.1 obj f.2
  omega
end

/-! ### `Specs.__getitem__` and `Specs.__call__` of `core/specs.py`

The runtime dispatch on the selector's kind (`None`, string path, tag,
tag type, any type, then the list fallback for slices and integer indices,
which raises `TypeError` for anything else) is embedded as a closed
selector type matched in the same order.  A selector that is a `TagBase`
subclass is dispatched by the `is_tagtype` test before the `is_anytype`
test, so the `anytype` constructor stands for a class that is not a
`TagBase` subclass. -/

inductive SelIndex where
  | noneIdx
  | strpath (pat : String)
  | tagIdx (t : TagV)
  | tagtype (cls : String)
  | anytype (cls : String)
  | sliceIdx (a b : Option Int)
  | intIdx (i : Int)
  | other (descr : String)

/-- `isinstance(tag, cls)` for a tag enum member and a class name. -/
def TagV.isinst (t : TagV) (cls : String) : Bool :=
  t.cls = cls || t.bases.contains cls

/-- `isinstance(spec.type, type) and issubclass(spec.type, cls)`: only a
bare class is a `type`; subclass means the name or one of the bases. -/
def Hint.isSubclassOf : Hint → String → Bool
  | .base n bs, cls => n = cls || bs.contains cls
  | _, _ => false

/-- Python list slicing with step 1 (`list[a:b]`): negative bounds count
from the end, bounds are clamped. -/
def pySlice (l : List PSpec) (a b : Option Int) : List PSpec :=
  let n : Int := l.length
  let lo := match a with
    | Option.none => 0
    | some i => if i < 0 then (n + i).toNat else min i.toNat l.length
  let hi := match b with
    | Option.none => l.length
    | some i => if i < 0 then (n + i).toNat else min i.toNat l.length
  (l.take hi).drop lo

/-- Python list indexing (`list[i]`): negative indices count from the end,
out of range raises `IndexError`. -/
def pyGet (l : List PSpec) (i : Int) : Except String PSpec :=
  let j : Int := if i < 0 then (l.length : Int) + i else i
  if j < 0 then .error "IndexError: list index out of range"
  else
    match l.get? j.toNat with
    | some s => .ok s
    | Option.none => .error "IndexError: list index out of range"

/-- `Specs.__getitem__` of `core/specs.py`: `None` selects everything
(shallow copy); a string path keeps the specs whose path full-matches it
as a regular expression; a tag keeps the specs that contain it; a tag type
keeps the specs with a tag of that type; any other type keeps the specs
whose `type` is a class subclassing it; a slice or integer goes to the
list itself, and any other selector is the list's `TypeError`. -/
def Specs.getitem (specs : List PSpec) (index : SelIndex) :
    Except String (Sum (List PSpec) PSpec) :=
  match index with
  | .noneIdx => .ok (.inl specs)
  | .strpath pat =>
    match parseRegex pat with
    | Option.none => .error "re.error: invalid pattern"
    | some r => .ok (.inl (specs.filter (fun sp => fullmatch r sp.path.render.toList)))
  | .tagIdx t => .ok (.inl (specs.filter (fun sp => decide (t ∈ sp.tags))))
  | .tagtype cls => .ok (.inl (specs.filter (fun sp => sp.tags.any (fun t => t.isinst cls))))
  | .anytype cls => .ok (.inl (specs.filter (fun sp => sp.type.isSubclassOf cls)))
  | .sliceIdx a b => .ok (.inl (pySlice specs a b))
  | .intIdx i => (pyGet specs i).map .inr
  | .other d => .error ("TypeError: list indices must be integers or slices, not " ++ d)

/-- `Specs.__call__` of `core/specs.py`: select like `__getitem__` but
always return a collection — a single selected spec is wrapped into a
one-element collection. -/
def Specs.call (specs : List PSpec) (index : SelIndex) :
    Except String (List PSpec) :=
  match Specs.getitem specs index with
  | .ok (.inr spec) => .ok [spec]
  | .ok (.inl l) => .ok l
  | .error e => .error e

/-! ## The specifier revision (`dataspecs/specs.py`)

`Spec` here is `data`, `id` (a normalized POSIX path), `name`, `tags`
(a frozenset of strings) and `type`; specifier objects (`Data`, `ID`,
`Name`, `Tag`, `Type`) compare against (`@`) or assign to (`>>`) one
attribute, and `Specs.merge` folds, per id group, the specs whose data is
a specifier into the group's unique main spec. -/

/-- Plain runtime values of this revision: `None`, strings, ints, lists
and classes (a class is its name and bases). -/
inductive PVal where
  | vnone
  | vstr (s : String)
  | vnat (n : Nat)
  | vlist (vs : List PVal)
  | vcls (name : String) (bases : List String)

mutual
def pvalBEq : PVal → PVal → Bool
  | .vnone, .vnone => true
  | .vstr a, .vstr b => a == b
  | .vnat a, .vnat b => a == b
  | .vlist a, .vlist b => pvalBEqList a b
  | .vcls n bs, .vcls m cs => n == m && bs == cs
  | _, _ => false

def pvalBEqList : List PVal → List PVal → Bool
  | [], [] => true
  | a :: t, b :: u => pvalBEq a b && pvalBEqList t u
  | _, _ => false
end

mutual
theorem pvalBEq_iff (a b : PVal) : pvalBEq a b = true ↔ a = b := by
  cases a <;> cases b <;> simp only [pvalBEq] <;>
    first
      | (rename_i xs ys
         rw [pvalBEqList_iff xs ys]
         simp)
      | simp

theorem pvalBEqList_iff (xs ys : List PVal) : pvalBEqList xs ys = true ↔ xs = ys := by
  cases xs with
  | nil => cases ys <;> simp [pvalBEqList]
  | cons a t =>
    cases ys with
    | nil => simp [pvalBEqList]
    | cons b u =>
      simp only [pvalBEqList, Bool.and_eq_true]
      rw [pvalBEq_iff a b, pvalBEqList_iff t u]
      simp
end

instance : DecidableEq PVal := fun a b => decidable_of_iff _ (pvalBEq_iff a b)

/-- The specifier objects: kind, value and the `regex` / `type` flags.
The value universe of `Data`/`Name`/`Type` is `PVal` (Python's `Any`,
restricted to the plain values; a specifier nested inside a specifier's
value does not occur). -/
inductive SpecifierV where
  | sdata (v : PVal) (rx ty : Bool)
  | sid (v : String) (rx ty : Bool)
  | sname (v : PVal) (rx ty : Bool)
  | stag (v : String) (rx ty : Bool)
  | stype (v : PVal) (rx ty : Bool)
deriving DecidableEq

/-- A `Spec.data` value: a plain value or a specifier object. -/
inductive SVal where
  | pv (p : PVal)
  | vspec (sp : SpecifierV)
deriving DecidableEq

/-- The `Spec` of `dataspecs/specs.py`. -/
structure SSpec where
  data : SVal
  id : String
  name : PVal
  tags : List String
  type : PVal
deriving DecidableEq

/-- `Spec.__post_init__`: normalize the id (`Path(normpath(id))`) and
freeze the tags (a frozenset, embedded as a deduplicated list). -/
def SSpec.postInit (s : SSpec) : SSpec :=
  { s with id := normpath s.id, tags := s.tags.eraseDups }

/-- The Python class name of a specifier object. -/
def SpecifierV.clsName : SpecifierV → String
  | .sdata _ _ _ => "Data"
  | .sid _ _ _ => "ID"
  | .sname _ _ _ => "Name"
  | .stag _ _ _ => "Tag"
  | .stype _ _ _ => "Type"

/-- The method resolution order (class names) of a plain value. -/
def PVal.mro : PVal → List String
  | .vnone => ["NoneType", "object"]
  | .vstr _ => ["str", "object"]
  | .vnat _ => ["int", "object"]
  | .vlist _ => ["list", "object"]
  | .vcls _ _ => ["type", "object"]

/-- The method resolution order (class names) of a `Spec.data` value. -/
def SVal.mro : SVal → List String
  | .pv p => p.mro
  | .vspec sp => [sp.clsName, "Specifier", "ABC", "object"]

/-- `specifier @ spec` (`Specifier.__matmul__` of each subclass): compare
the value with the corresponding spec attribute, by regular expression
when `regex=True`, by `isinstance`/`issubclass` when `type=True`, by
equality otherwise; the unsupported flag combinations raise
`ValueError`. -/
def smatmul (sp : SpecifierV) (s : SSpec) : Except String Bool :=
  match sp with
  | .sdata v rx ty =>
    if rx then
      match v, s.data with
      | .vstr pat, .pv (.vstr d) =>
        match parseRegex pat with
        | some r => .ok (fullmatch r d.toList)
        | Option.none => .error "re.error: invalid pattern"
      | _, _ => .ok false
    else if ty then
      match v with
      | .vcls n _ => .ok (s.data.mro.contains n)
      | _ => .ok false
    else .ok (decide (s.data = .pv v))
  | .sid v rx ty =>
    if rx then
      match parseRegex v with
      | some r => .ok (fullmatch r s.id.toList)
      | Option.none => .error "re.error: invalid pattern"
    else if ty then .error "Type comparison is not supported."
    else .ok (decide (v = s.id))
  | .sname v rx ty =>
    if rx then
      match v, s.name with
      | .vstr pat, .vstr d =>
        match parseRegex pat with
        | some r => .ok (fullmatch r d.toList)
        | Option.none => .error "re.error: invalid pattern"
      | _, _ => .ok false
    else if ty then
      match v with
      | .vcls n _ => .ok (s.name.mro.contains n)
      | _ => .ok false
    else .ok (decide (s.name = v))
  | .stag v rx ty =>
    if rx then
      match s.tags with
      | [] => .ok false
      | _ =>
        match parseRegex v with
        | some r => .ok (s.tags.any (fun t => fullmatch r t.toList))
        | Option.none => .error "re.error: invalid pattern"
    else if ty then .error "Type comparison is not supported."
    else .ok (s.tags.contains v)
  | .stype v rx ty =>
    if rx then .error "Regex comparison is not supported."
    else if ty then
      match v, s.type with
      | .vcls n _, .vcls m bs => .ok (m = n || bs.contains n)
      | _, _ => .ok false
    else .ok (decide (v = s.type))

/-- `specifier >> spec` (`Specifier.__rshift__`, also reached as
`spec << specifier`): assign the value to the corresponding attribute
via `dataclasses.replace`, which re-runs `__post_init__`.  A `Tag`
specifier unions its value into the tag set. -/
def sapply (sp : SpecifierV) (s : SSpec) : SSpec :=
  match sp with
  | .sdata v _ _ => SSpec.postInit { s with data := .pv v }
  | .sid v _ _ => SSpec.postInit { s with id := v }
  | .sname v _ _ => SSpec.postInit { s with name := v }
  | .stag v _ _ =>
    SSpec.postInit { s with tags := if s.tags.contains v then s.tags else s.tags ++ [v] }
  | .stype v _ _ => SSpec.postInit { s with type := v }

/-- The id keys of a collection in first-seen order (`defaultdict`
insertion order in `Specs.groupby`). -/
def groupKeys (specs : List SSpec) : List String :=
  specs.foldl (fun ks s => if ks.contains s.id then ks else ks ++ [s.id]) []

/-- `Specs.groupby("id")`: the groups of specs sharing an id, keys in
first-seen order, each group in original order. -/
def groupbyId (specs : List SSpec) : List (List SSpec) :=
  (groupKeys specs).map (fun k => specs.filter (fun s => s.id = k))

/-- `Specs.__sub__`: the specs not contained (by equality) in the other
collection. -/
def Specs.subtract (specs other : List SSpec) : List SSpec :=
  specs.filter (fun s => decide (s ∉ other))

/-- A Python list comprehension whose predicate may raise. -/
def filterEx (p : SSpec → Except String Bool) : List SSpec → Except String (List SSpec)
  | [] => .ok []
  | s :: t => do
    let b ← p s
    let r ← filterEx p t
    .ok (if b then s :: r else r)

/-- The selector `Data(Specifier, type=True)` used inside `merge`. -/
def dataSpecifierSel : SpecifierV := .sdata (.vcls "Specifier" ["ABC"]) false true

/-- `Specs.merge` of `dataspecs/specs.py`: group by id; in each group the
specs whose data is a specifier object (`group[Data(Specifier,
type=True)]`) are folded (`main << specifier.data`, in order) into the
unique remaining main spec; when the remaining specs are not exactly one
(`.unique is None`), raise `ValueError`.  (The fold's non-specifier
branch is unreachable: a spec selected by `Data(Specifier, type=True)`
has specifier data.) -/
def Specs.merge (specs : List SSpec) : Except String (List SSpec) :=
  (groupbyId specs).mapM (fun group => do
    let specifiers ← filterEx (smatmul dataSpecifierSel) group
    match Specs.subtract group specifiers with
    | [main] =>
      .ok (specifiers.foldl (fun m sp =>
        match sp.data with
        | .vspec spv => sapply spv m
        | _ => m) main)
    | _ => .error "Cannot identify main dataspec to merge.")

/-- Modelled from the spec: the `find`/specifier-resolution step of the
walker revision that carries override annotations (`AmbiguousSpecifier`,
spec §4.3 item 3 and §7) is not among the source files; per the spec it
identifies at most one override annotation of each specifier kind at a
node and fails with `AmbiguousSpecifier` when more than one annotation of
the same kind is present. -/
def find_specifiers (anns : List SpecifierV) : Except String (List SpecifierV) :=
  if anns.any (fun a =>
      2 ≤ (anns.filter (fun b => b.clsName = a.clsName)).length)
  then .error "AmbiguousSpecifier"
  else .ok anns

/-- Decidable equality of `Except` results (for evaluating concrete runs). -/
instance {e a : Type} [DecidableEq e] [DecidableEq a] : DecidableEq (Except e a) := fun x y =>
  match x, y with
  | .error u, .error v =>
    if h : u = v then .isTrue (by rw [h]) else .isFalse (by intro hh; cases hh; exact h rfl)
  | .ok u, .ok v =>
    if h : u = v then .isTrue (by rw [h]) else .isFalse (by intro hh; cases hh; exact h rfl)
  | .error _, .ok _ => .isFalse (by intro hh; cases hh)
  | .ok _, .error _ => .isFalse (by intro hh; cases hh)

/-! ## Normal forms of the walkers

The recursive walkers above are compiled by well-founded recursion; the
lemmas below restate each one as a plain `cons`/`append` of mapped
children (removing the `attach` used for termination), and a fuel-indexed
structural clone lets concrete runs be evaluated by the kernel. -/

theorem from_typehint_eq (h : Hint) (id : PPath) (d : Value) :
    from_typehint h id d = walk_first (get_first h) id d := by
  rw [from_typehint]

theorem walk_first_eq (f : Hint) (id : PPath) (d : Value) :
    walk_first f id d =
      (⟨id, get_tags f, stripAnns f, d, get_meta f⟩ : CSpec)
      :: (((get_subtypes f).enum.map
            (fun x => from_typehint x.2 (pjoin id (toString x.1)) Value.vnone)).flatten
          ++ ((named_enumerate (get_dataclasses f)).map
            (fun x => from_dataclass x.2 (pjoin id x.1))).flatten) := by
  rw [walk_first]
  rw [List.attach_map_val ((get_subtypes f).enum)
    (fun x => from_typehint x.2 (pjoin id (toString x.1)) Value.vnone)]
  rw [List.attach_map_val (named_enumerate (get_dataclasses f))
    (fun x => from_dataclass x.2 (pjoin id x.1))]

theorem from_dataclass_eq (obj : DCls) (id : PPath) :
    from_dataclass obj id =
      (⟨id, [], obj.clsHint, Value.vdc obj, []⟩ : CSpec)
      :: (obj.fields.map
            (fun f => from_typehint f.ftype (pjoin id f.fname) f.fdata)).flatten := by
  rw [from_dataclass]
  rw [List.attach_map_val obj.fields
    (fun f => from_typehint f.ftype (pjoin id f.fname) f.fdata)]

theorem api_from_typehint_eq (h : Hint) (p : PPath) (d : Value)
    (meta : List (String × Value)) (orig : Orig) :
    api_from_typehint h p d meta orig = api_walk_first h (get_first h) p d meta orig := by
  rw [api_from_typehint]

theorem api_walk_first_eq (h f : Hint) (p : PPath) (d : Value)
    (meta : List (String × Value)) (orig : Orig) :
    api_walk_first h f p d meta orig =
      (⟨p, p.lastName, get_tags f, stripAnns f, d, get_annotations f, meta, orig⟩ : PSpec)
      :: (((get_subtypes f).enum.map
            (fun x => api_from_typehint x.2 (pjoin p (toString x.1))
              Value.vnone [] (.hint h))).flatten
          ++ ((get_dataclasses f).map (fun x => api_from_dataclass x p)).flatten) := by
  rw [api_walk_first]
  rw [List.attach_map_val ((get_subtypes f).enum)
    (fun x => api_from_typehint x.2 (pjoin p (toString x.1)) Value.vnone [] (.hint h))]
  rw [List.attach_map_val (get_dataclasses f) (fun x => api_from_dataclass x p)]

theorem api_from_dataclass_eq (obj : DCls) (p : PPath) :
    api_from_dataclass obj p =
      (obj.fields.map
        (fun f => api_from_typehint f.ftype (pjoin p f.fname) f.fdata
          f.fmeta (.obj obj))).flatten := by
  rw [api_from_dataclass]
  rw [List.attach_map_val obj.fields
    (fun f => api_from_typehint f.ftype (pjoin p f.fname) f.fdata f.fmeta (.obj obj))]

/-- Fuel-indexed structural clone of `walk_first` (single recursion on the
fuel, with the `from_typehint` and `from_dataclass` steps inlined, so that
the kernel can evaluate concrete runs). -/
def wfF : Nat → Hint → PPath → Value → List CSpec
  | 0, _, _, _ => []
  | n + 1, f, id, d =>
    (⟨id, get_tags f, stripAnns f, d, get_meta f⟩ : CSpec)
    :: (((get_subtypes f).enum.map
          (fun x => wfF n (get_first x.2) (pjoin id (toString x.1)) Value.vnone)).flatten
        ++ ((named_enumerate (get_dataclasses f)).map
          (fun x =>
            (⟨pjoin id x.1, [], x.2.clsHint, Value.vdc x.2, []⟩ : CSpec)
            :: (x.2.fields.map
                (fun fl => wfF n (get_first fl.ftype)
                  (pjoin (pjoin id x.1) fl.fname) fl.fdata)).flatten)).flatten)

/-- Fuel-indexed clone of `from_typehint`. -/
def ftFuel (n : Nat) (h : Hint) (id : PPath) (d : Value) : List CSpec :=
  wfF n (get_first h) id d

/-- Fuel-indexed clone of `from_dataclass`. -/
def fdFuel (n : Nat) (o : DCls) (id : PPath) : List CSpec :=
  (⟨id, [], o.clsHint, Value.vdc o, []⟩ : CSpec)
  :: (o.fields.map (fun fl => ftFuel n fl.ftype (pjoin id fl.fname) fl.fdata)).flatten

theorem wfF_correct (n : Nat) : ∀ (f : Hint) (id : PPath) (d : Value),
    2 * hintSize f ≤ n → wfF n f id d = walk_first f id d := by
  induction n with
  | zero =>
    intro f id d hb
    have := hintSize_pos f
    omega
  | succ n ih =>
    intro f id d hb
    rw [walk_first_eq]
    show CSpec.mk id (get_tags f) (stripAnns f) d (get_meta f) :: _ = _
    congr 1
    congr 1
    · congr 1
      apply List.map_congr_left
      intro x hx
      have hmem : x.2 ∈ get_subtypes f := enum_snd_mem _ _ hx
      have h1 := hintSize_get_subtypes x.2 f hmem
      have h2 := hintSize_get_first x.2
      rw [from_typehint_eq]
      exact ih _ _ _ (by omega)
    · congr 1
      apply List.map_congr_left
      intro x hx
      have hmem : x.2 ∈ get_dataclasses f := named_enumerate_mem _ _ hx
      have h1 := dclsSize_get_dataclasses x.2 f hmem
      rw [from_dataclass_eq]
      congr 1
      congr 1
      apply List.map_congr_left
      intro fl hfl
      have h2 := hintSize_field fl x.2 hfl
      have h3 := hintSize_get_first fl.ftype
      rw [from_typehint_eq]
      exact ih _ _ _ (by omega)

theorem ftFuel_correct (n : Nat) (h : Hint) (id : PPath) (d : Value)
    (hb : 2 * hintSize h ≤ n) : ftFuel n h id d = from_typehint h id d := by
  rw [ftFuel, from_typehint_eq]
  have := hintSize_get_first h
  exact wfF_correct n _ id d (by omega)

theorem fdFuel_correct (n : Nat) (o : DCls) (id : PPath)
    (hb : 2 * dclsSize o ≤ n) : fdFuel n o id = from_dataclass o id := by
  rw [fdFuel, from_dataclass_eq]
  congr 1
  congr 1
  apply List.map_congr_left
  intro fl hfl
  have := hintSize_field fl o hfl
  exact ftFuel_correct n _ _ _ (by omega)

/-- Fuel-indexed structural clone of `api_walk_first` (with the
`api_from_typehint` and `api_from_dataclass` steps inlined). -/
def awfF : Nat → Hint → Hint → PPath → Value → List (String × Value) → Orig → List PSpec
  | 0, _, _, _, _, _, _ => []
  | n + 1, h, f, p, d, meta, orig =>
    (⟨p, p.lastName, get_tags f, stripAnns f, d, get_annotations f, meta, orig⟩ : PSpec)
    :: (((get_subtypes f).enum.map
          (fun x => awfF n x.2 (get_first x.2) (pjoin p (toString x.1))
            Value.vnone [] (.hint h))).flatten
        ++ ((get_dataclasses f).map
          (fun x =>
            (x.fields.map
              (fun fl => awfF n fl.ftype (get_first fl.ftype) (pjoin p fl.fname)
                fl.fdata fl.fmeta (.obj x))).flatten)).flatten)

/-- Fuel-indexed clone of `api_from_typehint`. -/
def aftFuel (n : Nat) (h : Hint) (p : PPath) (d : Value)
    (meta : List (String × Value)) (orig : Orig) : List PSpec :=
  awfF n h (get_first h) p d meta orig

theorem awfF_correct (n : Nat) : ∀ (h f : Hint) (p : PPath) (d : Value)
    (meta : List (String × Value)) (orig : Orig),
    2 * hintSize f ≤ n → awfF n h f p d meta orig = api_walk_first h f p d meta orig := by
  induction n with
  | zero =>
    intro h f p d meta orig hb
    have := hintSize_pos f
    omega
  | succ n ih =>
    intro h f p d meta orig hb
    rw [api_walk_first_eq]
    show PSpec.mk p p.lastName (get_tags f) (stripAnns f) d (get_annotations f) meta orig
        :: _ = _
    congr 1
    congr 1
    · congr 1
      apply List.map_congr_left
      intro x hx
      have hmem : x.2 ∈ get_subtypes f := enum_snd_mem _ _ hx
      have h1 := hintSize_get_subtypes x.2 f hmem
      have h2 := hintSize_get_first x.2
      rw [api_from_typehint_eq]
      exact ih _ _ _ _ _ _ (by omega)
    · congr 1
      apply List.map_congr_left
      intro x hx
      have h1 := dclsSize_get_dataclasses x f hx
      rw [api_from_dataclass_eq]
      congr 1
      apply List.map_congr_left
      intro fl hfl
      have h2 := hintSize_field fl x hfl
      have h3 := hintSize_get_first fl.ftype
      rw [api_from_typehint_eq]
      exact ih _ _ _ _ _ _ (by omega)

theorem aftFuel_correct (n : Nat) (h : Hint) (p : PPath) (d : Value)
    (meta : List (String × Value)) (orig : Orig) (hb : 2 * hintSize h ≤ n) :
    aftFuel n h p d meta orig = api_from_typehint h p d meta orig := by
  rw [aftFuel, api_from_typehint_eq]
  have := hintSize_get_first h
  exact awfF_correct n _ _ p d meta orig (by omega)

/-! ## Concrete fixtures (the `Weather` example of the docstrings and the
embedded-`Quantity` sub-specification scenario) -/

def tagDATA : TagV := ⟨"Tag", ["TagBase"], "DATA"⟩
def tagDTYPE : TagV := ⟨"Tag", ["TagBase"], "DTYPE"⟩
def tagATTR : TagV := ⟨"Tag", ["TagBase"], "ATTR"⟩
def floatH : Hint := .base "float" ["object"]
def strH : Hint := .base "str" ["object"]
def intH : Hint := .base "int" ["object"]

/-- `Ann[list[Ann[float, Tag.DTYPE]], Tag.DATA]`. -/
def tempT : Hint := .ann (.app "list" [.ann floatH [.tag tagDTYPE]]) [.tag tagDATA]

/-- `Weather([20.0, 25.0], [50.0, 55.0], "Tokyo")` (numeric data embedded
as numerals). -/
def weatherObj : DCls := .mk "Weather"
  [ .mk "temp" tempT (.vlist [.vnat 20, .vnat 25]) []
  , .mk "humid" tempT (.vlist [.vnat 50, .vnat 55]) []
  , .mk "location" (.ann strH [.tag tagATTR]) (.vstr "Tokyo") [] ]

/-- `Quantity("K")`-style sub-specification dataclass object. -/
def quantityObj : DCls := .mk "Quantity" [ .mk "units" strH (.vstr "K") [] ]

/-- `Ann[int, Quantity("K")]`: a hint annotated with a dataclass object. -/
def hintQ : Hint := .ann intH [.dc quantityObj]

/-- The path `/x`. -/
def pathX : PPath := ⟨"/", ["x"]⟩

/-! ## The claims -/

/-- The subtree of specs a single dataclass field contributes. -/
def fieldSubtree (id : PPath) (f : FieldD) : List CSpec :=
  from_typehint f.ftype (pjoin id f.fname) f.fdata

/-- Where field `i`'s subtree starts inside `from_dataclass`'s output: one
(the object's own spec) plus the lengths of the earlier fields'
subtrees. -/
def subtreeStart (obj : DCls) (id : PPath) (i : Nat) : Nat :=
  1 + ((obj.fields.take i).map (fun f => (fieldSubtree id f).length)).sum

/-- C1: `from_dataclass` lists the specs in depth-first pre-order: the
object's spec comes first, followed by the concatenation of the fields'
subtrees in field-declaration order; inside `from_typehint` the node's
spec precedes its whole subtree, and the subtype subtrees follow in
positional (`enumerate`) order before the annotation-dataclass subtrees;
consequently, dropping the output prefix up to field `i`'s start leaves
exactly the subtrees of the remaining fields, in order (so for fields
`(a, b, c)` the spec for `a` and its entire subtree precede the spec for
`b`). -/
theorem from_dataclass_preorder :
    (∀ (obj : DCls) (id : PPath),
      from_dataclass obj id =
        (⟨id, [], obj.clsHint, Value.vdc obj, []⟩ : CSpec)
        :: (obj.fields.map (fieldSubtree id)).flatten)
    ∧ (∀ (h : Hint) (id : PPath) (d : Value),
      from_typehint h id d =
        (⟨id, get_tags (get_first h), stripAnns (get_first h), d,
            get_meta (get_first h)⟩ : CSpec)
        :: (((get_subtypes (get_first h)).enum.map
              (fun x => from_typehint x.2 (pjoin id (toString x.1)) Value.vnone)).flatten
            ++ ((named_enumerate (get_dataclasses (get_first h))).map
              (fun x => from_dataclass x.2 (pjoin id x.1))).flatten))
    ∧ (∀ (obj : DCls) (id : PPath) (i : Nat), i ≤ obj.fields.length →
      (from_dataclass obj id).drop (subtreeStart obj id i) =
        ((obj.fields.drop i).map (fieldSubtree id)).flatten) := by
  have h1 : ∀ (obj : DCls) (id : PPath),
      from_dataclass obj id =
        (⟨id, [], obj.clsHint, Value.vdc obj, []⟩ : CSpec)
        :: (obj.fields.map (fieldSubtree id)).flatten := by
    intro obj id
    rw [from_dataclass_eq]
    rfl
  refine ⟨h1, ?_, ?_⟩
  · intro h id d
    rw [from_typehint_eq, walk_first_eq]
  · intro obj id i hi
    rw [h1, subtreeStart]
    rw [List.drop_add, List.drop_one]
    show ((obj.fields.map (fieldSubtree id)).flatten).drop _ = _
    have key := List.drop_sum_flatten (obj.fields.map (fieldSubtree id)) i
    simp only [List.map_map, List.map_take, List.map_drop, Function.comp] at key ⊢
    exact key

/-- Witness for C1 at the `Weather` fixture: dropping the object spec and
the first field's subtree leaves exactly the subtrees of the remaining
fields. -/
theorem from_dataclass_preorder_witness :
    (from_dataclass weatherObj rootPP).drop (subtreeStart weatherObj rootPP 1) =
      ((weatherObj.fields.drop 1).map (fieldSubtree rootPP)).flatten :=
  (from_dataclass_preorder.2.2) weatherObj rootPP 1 (by decide)

/-- C3 (counterexample): for the hint `Ann[int, Quantity("K")]` at `/x`,
the `core/api.py` walker addresses the embedded dataclass at the *child*
id `/x/quantity` (fields under `/x/quantity/...`), and no spec is
produced at `/x/units` — refuting "recurses at the same identifier". -/
theorem from_typehint_subdataclass_child_id_cex :
    (from_typehint hintQ pathX Value.vnone).map (fun s => s.id.render) =
      ["/x", "/x/quantity", "/x/quantity/units"] ∧
    (from_typehint hintQ pathX Value.vnone).all
      (fun s => s.id.render != "/x/units") = true := by
  constructor
  · rw [← ftFuel_correct 20 hintQ pathX Value.vnone (by decide)]
    decide
  · rw [← ftFuel_correct 20 hintQ pathX Value.vnone (by decide)]
    decide

/-- C3 (amended): the flat `api.py` walker recurses into an annotation
dataclass via `from_dataclass` at the *same* path (so its fields are
addressed directly under the current node, e.g. `/x/units`), whereas the
`core/api.py` walker recurses at the *child* id `id/<snake-cased class
name>` produced by `named_enumerate` (e.g. `/x/quantity`, fields at
`/x/quantity/units`).  In both versions the recursion's whole output
appears contiguously inside the node's output. -/
theorem from_typehint_subdataclass_ids :
    (∀ (h : Hint) (id : PPath) (d : Value) (nm : String) (dc : DCls),
      (nm, dc) ∈ named_enumerate (get_dataclasses (get_first h)) →
      ∃ pre post, from_typehint h id d = pre ++ from_dataclass dc (pjoin id nm) ++ post)
    ∧ (∀ (h : Hint) (p : PPath) (d : Value) (meta : List (String × Value)) (orig : Orig)
        (dc : DCls), dc ∈ get_dataclasses (get_first h) →
      ∃ pre post,
        api_from_typehint h p d meta orig = pre ++ api_from_dataclass dc p ++ post)
    ∧ (api_from_typehint hintQ pathX Value.vnone [] Orig.none).map
        (fun s => s.path.render) = ["/x", "/x/units"]
    ∧ (from_typehint hintQ pathX Value.vnone).map (fun s => s.id.render)
        = ["/x", "/x/quantity", "/x/quantity/units"] := by
  refine ⟨?_, ?_, ?_, ?_⟩
  · intro h id d nm dc hdc
    obtain ⟨s, t, hst⟩ := List.append_of_mem hdc
    refine ⟨(⟨id, get_tags (get_first h), stripAnns (get_first h), d,
        get_meta (get_first h)⟩ : CSpec)
      :: ((get_subtypes (get_first h)).enum.map
            (fun x => from_typehint x.2 (pjoin id (toString x.1)) Value.vnone)).flatten
      ++ (s.map (fun x => from_dataclass x.2 (pjoin id x.1))).flatten,
      (t.map (fun x => from_dataclass x.2 (pjoin id x.1))).flatten, ?_⟩
    rw [from_typehint_eq, walk_first_eq, hst]
    simp [List.map_append, List.flatten_append, List.append_assoc]
  · intro h p d meta orig dc hdc
    obtain ⟨s, t, hst⟩ := List.append_of_mem hdc
    refine ⟨(⟨p, p.lastName, get_tags (get_first h), stripAnns (get_first h), d,
        get_annotations (get_first h), meta, orig⟩ : PSpec)
      :: ((get_subtypes (get_first h)).enum.map
            (fun x => api_from_typehint x.2 (pjoin p (toString x.1))
              Value.vnone [] (.hint h))).flatten
      ++ (s.map (fun x => api_from_dataclass x p)).flatten,
      (t.map (fun x => api_from_dataclass x p)).flatten, ?_⟩
    rw [api_from_typehint_eq, api_walk_first_eq, hst]
    simp [List.map_append, List.flatten_append, List.append_assoc]
  · rw [← aftFuel_correct 20 hintQ pathX Value.vnone [] Orig.none (by decide)]
    decide
  · rw [← ftFuel_correct 20 hintQ pathX Value.vnone (by decide)]
    decide

/-- Witness for C3's amended statement: the `Quantity` annotation of
`hintQ` is walked, and its output block occurs inside the node's
output. -/
theorem from_typehint_subdataclass_ids_witness :
    ∃ pre post, from_typehint hintQ pathX Value.vnone =
      pre ++ from_dataclass quantityObj (pjoin pathX "quantity") ++ post :=
  (from_typehint_subdataclass_ids.1) hintQ pathX Value.vnone "quantity" quantityObj
    (by exact List.Mem.head _)

/-- The first union arm re-wrapped in the outer annotations (the spec's
description of the collapsing policy, to be compared with `get_first`). -/
def wrapAnns (a : Hint) (anns : List Ann) : Hint :=
  anns.foldl mkAnnotated a

/-- C4: on a union hint (bare or `Annotated[...]`-wrapped), `get_first`
yields exactly the first union arm re-wrapped in the outer annotations,
and the walker's whole output is the output of its body on that re-wrapped
first arm — the remaining union arms (`as`) contribute no spec at all
(they do not occur in the right-hand sides). -/
theorem from_typehint_union_first_arm :
    (∀ (a : Hint) (as : List Hint) (anns : List Ann),
      get_first (.ann (.union a as) anns) = wrapAnns a anns)
    ∧ (∀ (a : Hint) (as : List Hint), get_first (.union a as) = a)
    ∧ (∀ (a : Hint) (as : List Hint) (anns : List Ann) (id : PPath) (d : Value),
      from_typehint (.ann (.union a as) anns) id d = walk_first (wrapAnns a anns) id d)
    ∧ (∀ (a : Hint) (as : List Hint) (id : PPath) (d : Value),
      from_typehint (.union a as) id d = walk_first a id d) := by
  have g1 : ∀ (a : Hint) (as : List Hint) (anns : List Ann),
      get_first (.ann (.union a as) anns) = wrapAnns a anns := by
    intro a as anns
    unfold get_first wrapAnns
    rfl
  have g2 : ∀ (a : Hint) (as : List Hint), get_first (.union a as) = a := by
    intro a as
    unfold get_first
    rfl
  refine ⟨g1, g2, ?_, ?_⟩
  · intro a as anns id d
    rw [from_typehint_eq, g1]
  · intro a as id d
    rw [from_typehint_eq, g2]

/-! ### Correctness of the derivative matcher (claim C5) -/

theorem emp_no_match (x : List Char) (h : RMatch .emp x) : False := by
  generalize hq : Regex.emp = q at h
  cases h <;> simp at hq

theorem eps_match_inv (x : List Char) (h : RMatch .eps x) : x = [] := by
  generalize hq : Regex.eps = q at h
  cases h <;> simp at hq
  rfl

theorem chr_match_inv (a : Char) (x : List Char) (h : RMatch (.chr a) x) : x = [a] := by
  generalize hq : Regex.chr a = q at h
  cases h <;> simp at hq
  subst hq
  rfl

theorem anyc_match_inv (x : List Char) (h : RMatch .anyc x) :
    ∃ c, x = [c] ∧ c ≠ '\n' := by
  generalize hq : Regex.anyc = q at h
  cases h <;> simp at hq
  rename_i c hc
  exact ⟨c, rfl, hc⟩

theorem cls_match_inv (neg : Bool) (cs : List Char) (x : List Char)
    (h : RMatch (.cls neg cs) x) : ∃ c, x = [c] ∧ clsMatch neg cs c = true := by
  generalize hq : Regex.cls neg cs = q at h
  cases h <;> simp at hq
  rename_i n' cs' c hc
  obtain ⟨rfl, rfl⟩ := hq
  exact ⟨c, rfl, hc⟩

theorem cat_match_inv (r₁ r₂ : Regex) (x : List Char) (h : RMatch (.cat r₁ r₂) x) :
    ∃ s₁ s₂, x = s₁ ++ s₂ ∧ RMatch r₁ s₁ ∧ RMatch r₂ s₂ := by
  generalize hq : Regex.cat r₁ r₂ = q at h
  cases h <;> simp at hq
  rename_i a b s₁ s₂ h₁ h₂
  obtain ⟨rfl, rfl⟩ := hq
  exact ⟨s₁, s₂, rfl, h₁, h₂⟩

theorem alt_match_inv (r₁ r₂ : Regex) (x : List Char) (h : RMatch (.alt r₁ r₂) x) :
    RMatch r₁ x ∨ RMatch r₂ x := by
  generalize hq : Regex.alt r₁ r₂ = q at h
  cases h <;> simp at hq
  · rename_i a b h'
    obtain ⟨rfl, rfl⟩ := hq
    exact Or.inl h'
  · rename_i a b h'
    obtain ⟨rfl, rfl⟩ := hq
    exact Or.inr h'

theorem star_match_inv_aux (q : Regex) (x : List Char) (h : RMatch q x) :
    ∀ r, q = .star r →
      x = [] ∨ ∃ s₁ s₂, x = s₁ ++ s₂ ∧ s₁ ≠ [] ∧ RMatch r s₁ ∧ RMatch (.star r) s₂ := by
  induction h
  case star0 r' =>
    intro r hr
    exact Or.inl rfl
  case stars r' s₁ s₂ h₁ h₂ ih₁ ih₂ =>
    intro rr hr
    injection hr with hr'
    subst hr'
    by_cases hs : s₁ = []
    · subst hs
      simpa using ih₂ r' rfl
    · exact Or.inr ⟨s₁, s₂, rfl, hs, h₁, h₂⟩
  all_goals intro r hr
  all_goals simp at hr

theorem star_match_inv (r : Regex) (x : List Char) (h : RMatch (.star r) x) :
    x = [] ∨ ∃ s₁ s₂, x = s₁ ++ s₂ ∧ s₁ ≠ [] ∧ RMatch r s₁ ∧ RMatch (.star r) s₂ :=
  star_match_inv_aux _ _ h r rfl

theorem nullable_iff (r : Regex) : nullable r = true ↔ RMatch r [] := by
  induction r with
  | emp =>
    constructor
    · intro h; simp [nullable] at h
    · intro h; exact absurd h (fun hh => emp_no_match _ hh)
  | eps =>
    constructor
    · intro _; exact RMatch.eps
    · intro _; rfl
  | chr c =>
    constructor
    · intro h; simp [nullable] at h
    · intro h
      have := chr_match_inv c [] h
      simp at this
  | anyc =>
    constructor
    · intro h; simp [nullable] at h
    · intro h
      obtain ⟨c, hc, _⟩ := anyc_match_inv [] h
      simp at hc
  | cls neg cs =>
    constructor
    · intro h; simp [nullable] at h
    · intro h
      obtain ⟨c, hc, _⟩ := cls_match_inv neg cs [] h
      simp at hc
  | cat r₁ r₂ ih₁ ih₂ =>
    constructor
    · intro h
      simp [nullable] at h
      have := RMatch.cat r₁ r₂ [] [] (ih₁.mp h.1) (ih₂.mp h.2)
      simpa using this
    · intro h
      obtain ⟨s₁, s₂, hs, h₁, h₂⟩ := cat_match_inv r₁ r₂ [] h
      obtain ⟨hs₁, hs₂⟩ := List.append_eq_nil.mp hs.symm
      subst hs₁; subst hs₂
      simp [nullable, ih₁.mpr h₁, ih₂.mpr h₂]
  | alt r₁ r₂ ih₁ ih₂ =>
    constructor
    · intro h
      simp [nullable] at h
      rcases h with h | h
      · exact RMatch.altL _ _ _ (ih₁.mp h)
      · exact RMatch.altR _ _ _ (ih₂.mp h)
    · intro h
      rcases alt_match_inv r₁ r₂ [] h with h | h
      · simp [nullable, ih₁.mpr h]
      · simp [nullable, ih₂.mpr h]
  | star r ih =>
    constructor
    · intro _; exact RMatch.star0 r
    · intro _; rfl

theorem rderiv_iff (r : Regex) : ∀ (c : Char) (s : List Char),
    RMatch (rderiv c r) s ↔ RMatch r (c :: s) := by
  induction r with
  | emp =>
    intro c s
    constructor
    · intro h; exact absurd h (fun hh => emp_no_match _ hh)
    · intro h; exact absurd h (fun hh => emp_no_match _ hh)
  | eps =>
    intro c s
    constructor
    · intro h; exact absurd h (fun hh => emp_no_match _ hh)
    · intro h; have := eps_match_inv _ h; simp at this
  | chr a =>
    intro c s
    by_cases hac : a = c
    · subst hac
      rw [show rderiv a (.chr a) = .eps from by simp [rderiv]]
      constructor
      · intro h
        have := eps_match_inv _ h
        subst this
        exact RMatch.chr a
      · intro h
        have := chr_match_inv _ _ h
        simp at this
        subst this
        exact RMatch.eps
    · rw [show rderiv c (.chr a) = .emp from by simp [rderiv, hac]]
      constructor
      · intro h; exact absurd h (fun hh => emp_no_match _ hh)
      · intro h
        have := chr_match_inv _ _ h
        simp at this
        exact absurd this.1.symm hac
  | anyc =>
    intro c s
    by_cases hc : c = '\n'
    · rw [show rderiv c .anyc = .emp from by simp [rderiv, hc]]
      constructor
      · intro h; exact absurd h (fun hh => emp_no_match _ hh)
      · intro h
        obtain ⟨c', hc', hne⟩ := anyc_match_inv _ h
        simp at hc'
        exact absurd (hc ▸ hc'.1.symm) hne
    · rw [show rderiv c .anyc = .eps from by simp [rderiv, hc]]
      constructor
      · intro h
        have := eps_match_inv _ h
        subst this
        exact RMatch.anyc c hc
      · intro h
        obtain ⟨c', hc', hne⟩ := anyc_match_inv _ h
        simp at hc'
        rw [hc'.2]
        exact RMatch.eps
  | cls neg cs =>
    intro c s
    by_cases hm : clsMatch neg cs c = true
    · rw [show rderiv c (.cls neg cs) = .eps from by simp [rderiv, hm]]
      constructor
      · intro h
        have := eps_match_inv _ h
        subst this
        exact RMatch.cls neg cs c hm
      · intro h
        obtain ⟨c', hc', hcm⟩ := cls_match_inv _ _ _ h
        simp at hc'
        rw [hc'.2]
        exact RMatch.eps
    · rw [show rderiv c (.cls neg cs) = .emp from by simp [rderiv, hm]]
      constructor
      · intro h; exact absurd h (fun hh => emp_no_match _ hh)
      · intro h
        obtain ⟨c', hc', hcm⟩ := cls_match_inv _ _ _ h
        simp at hc'
        rw [hc'.1] at hm
        exact absurd hcm hm
  | cat r₁ r₂ ih₁ ih₂ =>
    intro c s
    by_cases hn : nullable r₁ = true
    · rw [show rderiv c (.cat r₁ r₂) = .alt (.cat (rderiv c r₁) r₂) (rderiv c r₂)
        from by simp [rderiv, hn]]
      constructor
      · intro h
        rcases alt_match_inv _ _ _ h with h | h
        · obtain ⟨s₁, s₂, rfl, h₁, h₂⟩ := cat_match_inv _ _ _ h
          have := RMatch.cat r₁ r₂ (c :: s₁) s₂ ((ih₁ c s₁).mp h₁) h₂
          simpa using this
        · have h₀ : RMatch r₁ [] := (nullable_iff r₁).mp hn
          have := RMatch.cat r₁ r₂ [] (c :: s) h₀ ((ih₂ c s).mp h)
          simpa using this
      · intro h
        obtain ⟨s₁, s₂, hsplit, h₁, h₂⟩ := cat_match_inv _ _ _ h
        cases s₁ with
        | nil =>
          simp at hsplit
          subst hsplit
          exact RMatch.altR _ _ _ ((ih₂ c s).mpr h₂)
        | cons c₁ t₁ =>
          simp at hsplit
          obtain ⟨rfl, rfl⟩ := hsplit
          exact RMatch.altL _ _ _
            (RMatch.cat _ _ t₁ s₂ ((ih₁ _ t₁).mpr h₁) h₂)
    · rw [show rderiv c (.cat r₁ r₂) = .cat (rderiv c r₁) r₂
        from by simp [rderiv, hn]]
      constructor
      · intro h
        obtain ⟨s₁, s₂, rfl, h₁, h₂⟩ := cat_match_inv _ _ _ h
        have := RMatch.cat r₁ r₂ (c :: s₁) s₂ ((ih₁ c s₁).mp h₁) h₂
        simpa using this
      · intro h
        obtain ⟨s₁, s₂, hsplit, h₁, h₂⟩ := cat_match_inv _ _ _ h
        cases s₁ with
        | nil =>
          exact absurd ((nullable_iff r₁).mpr h₁) hn
        | cons c₁ t₁ =>
          simp at hsplit
          obtain ⟨rfl, rfl⟩ := hsplit
          exact RMatch.cat _ _ t₁ s₂ ((ih₁ _ t₁).mpr h₁) h₂
  | alt r₁ r₂ ih₁ ih₂ =>
    intro c s
    rw [show rderiv c (.alt r₁ r₂) = .alt (rderiv c r₁) (rderiv c r₂)
      from by simp [rderiv]]
    constructor
    · intro h
      rcases alt_match_inv _ _ _ h with h | h
      · exact RMatch.altL _ _ _ ((ih₁ c s).mp h)
      · exact RMatch.altR _ _ _ ((ih₂ c s).mp h)
    · intro h
      rcases alt_match_inv _ _ _ h with h | h
      · exact RMatch.altL _ _ _ ((ih₁ c s).mpr h)
      · exact RMatch.altR _ _ _ ((ih₂ c s).mpr h)
  | star r ih =>
    intro c s
    rw [show rderiv c (.star r) = .cat (rderiv c r) (.star r) from by simp [rderiv]]
    constructor
    · intro h
      obtain ⟨s₁, s₂, rfl, h₁, h₂⟩ := cat_match_inv _ _ _ h
      have := RMatch.stars r (c :: s₁) s₂ ((ih c s₁).mp h₁) h₂
      simpa using this
    · intro h
      rcases star_match_inv r (c :: s) h with h' | ⟨s₁, s₂, hsplit, hne, h₁, h₂⟩
      · simp at h'
      · cases s₁ with
        | nil => exact absurd rfl hne
        | cons c₁ t₁ =>
          simp at hsplit
          obtain ⟨rfl, rfl⟩ := hsplit
          exact RMatch.cat _ _ t₁ s₂ ((ih _ t₁).mpr h₁) h₂

theorem fullmatch_iff (r : Regex) (s : List Char) :
    fullmatch r s = true ↔ RMatch r s := by
  induction s generalizing r with
  | nil => exact nullable_iff r
  | cons c t ih =>
    rw [show fullmatch r (c :: t) = fullmatch (rderiv c r) t from rfl]
    rw [ih (rderiv c r)]
    exact rderiv_iff r c t

/-- C5: identifier pattern matching is a full-string match, never a prefix
match: the executable matcher agrees with the declarative whole-string
language semantics, `ID.matches` (glob dialect: `*` one segment, `**` any
segments) and `Path.match` (plain regular expression) validate the spec's
examples, and a pattern matching a proper prefix of the path (\"/a\"
against \"/a/b\") does not match. -/
theorem matches_full_string :
    (∀ (r : Regex) (s : List Char), fullmatch r s = true ↔ RMatch r s)
    ∧ ID.matches (parsePP "/a/b") "/a/.*" = some true
    ∧ ID.matches (parsePP "/a/b") "/c/.*" = some false
    ∧ ID.matches (parsePP "/") ".*" = some true
    ∧ Path.matchRe (parsePP "/a/b") "/a/.*" = some true
    ∧ Path.matchRe (parsePP "/a/b") "/c/.*" = some false
    ∧ Path.matchRe (parsePP "/") ".*" = some true
    ∧ Path.matchRe (parsePP "/a/b") "/a" = some false
    ∧ ID.matches (parsePP "/a/b") "/a" = some false
    ∧ ID.matches (parsePP "/a/b") "/a/*" = some true
    ∧ ID.matches (parsePP "/a/b/c") "/a/*" = some false
    ∧ ID.matches (parsePP "/a/b/c") "/a/**" = some true := by
  exact ⟨fullmatch_iff, by decide, by decide, by decide, by decide, by decide,
    by decide, by decide, by decide, by decide, by decide, by decide⟩

/-- C6 (counterexample): `Path("//a")` of `core/specs.py` starts with the
root `/` (its first character is a slash and its canonical string is
`//a`), yet construction raises, because `PurePosixPath` parses exactly
two leading slashes as the root `"//"`, which is not `"/"` — refuting
"fails if and only if the resulting path does not start with the root
`/`". -/
theorem path_root_double_slash_cex :
    Path.mkCore ["//a"] = .error "Path must start with the root (/)."
    ∧ (parseMany ["//a"]).render = "//a"
    ∧ "//a".toList.head? = some '/' := by
  exact ⟨by decide, by decide, by decide⟩

/-- C6 (amended): `ID` construction (`typing.py`) fails exactly when the
parsed path's root is empty (the path does not start with `/`), and
`Path` construction (`core/specs.py`) fails exactly when the parsed root
differs from `"/"` — which additionally rejects paths with exactly two
leading slashes (root `"//"`) even though they start with `/`.  On
success both return the parsed path, `Identifier("relative")` fails,
`Identifier("/")` succeeds and equals itself concatenated with no
segments, and there is no other failure mode. -/
theorem identifier_rooting :
    (∀ segs, (∃ e, ID.mk segs = .error e) ↔ (parseMany segs).root = "")
    ∧ (∀ segs, (∃ e, Path.mkCore segs = .error e) ↔ (parseMany segs).root ≠ "/")
    ∧ (∀ segs p, ID.mk segs = .ok p → p = parseMany segs)
    ∧ (∀ segs p, Path.mkCore segs = .ok p → p = parseMany segs)
    ∧ ID.mk ["relative"] = .error "ID must start with the root."
    ∧ ID.mk ["/"] = .ok rootPP
    ∧ Path.mkCore ["/"] = .ok rootPP
    ∧ ([] : List String).foldl (fun q s => joinPP q (parsePP s)) rootPP = rootPP
    ∧ ID.mk ["//a"] = .ok ⟨"//", ["a"]⟩
    ∧ Path.mkCore ["//a"] = .error "Path must start with the root (/)." := by
  refine ⟨?_, ?_, ?_, ?_, by decide, by decide, by decide, rfl, by decide, by decide⟩
  · intro segs
    unfold ID.mk
    by_cases h : (parseMany segs).root = "" <;> simp [h]
  · intro segs
    unfold Path.mkCore
    by_cases h : (parseMany segs).root = "/" <;> simp [h]
  · intro segs p h
    unfold ID.mk at h
    by_cases hr : (parseMany segs).root = "" <;> simp [hr] at h
    exact h.symm
  · intro segs p h
    unfold Path.mkCore at h
    by_cases hr : (parseMany segs).root = "/" <;> simp [hr] at h
    exact h.symm

/-- C8: selecting with a selector of unrecognized kind (not `None`, not a
string path, not a tag or tag type, not a type, not a slice or integer)
reaches the list fallback and raises `TypeError` (the spec's
`UnsupportedSelector`); no result — in particular no partial one — is
returned. -/
theorem getitem_unsupported_selector : ∀ (specs : List PSpec) (d : String),
    Specs.getitem specs (.other d) =
      .error ("TypeError: list indices must be integers or slices, not " ++ d)
    ∧ ∀ r, Specs.getitem specs (.other d) ≠ .ok r := by
  intro specs d
  refine ⟨rfl, ?_⟩
  intro r h
  simp [Specs.getitem] at h

/-- C9: selection by a tag is idempotent (`specs[tag][tag] == specs[tag]`)
and each predicate-based selector (tag, tag type, type, string path with
a compilable pattern) returns a new collection holding exactly the
matching elements in their original order (a sublist of the input whose
membership is characterized by the predicate). -/
theorem tag_selection_idempotent :
    (∀ (specs : List PSpec) (t : TagV), ∃ l,
      Specs.getitem specs (.tagIdx t) = .ok (.inl l)
      ∧ Specs.getitem l (.tagIdx t) = .ok (.inl l)
      ∧ l.Sublist specs
      ∧ (∀ s, s ∈ l ↔ s ∈ specs ∧ t ∈ s.tags))
    ∧ (∀ (specs : List PSpec) (cls : String), ∃ l,
      Specs.getitem specs (.tagtype cls) = .ok (.inl l)
      ∧ l.Sublist specs
      ∧ (∀ s, s ∈ l ↔ s ∈ specs ∧ s.tags.any (fun tg => tg.isinst cls) = true))
    ∧ (∀ (specs : List PSpec) (cls : String), ∃ l,
      Specs.getitem specs (.anytype cls) = .ok (.inl l)
      ∧ l.Sublist specs
      ∧ (∀ s, s ∈ l ↔ s ∈ specs ∧ s.type.isSubclassOf cls = true))
    ∧ (∀ (specs : List PSpec) (pat : String) (r : Regex), parseRegex pat = some r →
      ∃ l, Specs.getitem specs (.strpath pat) = .ok (.inl l)
      ∧ l.Sublist specs
      ∧ (∀ s, s ∈ l ↔ s ∈ specs ∧ fullmatch r s.path.render.toList = true)) := by
  refine ⟨?_, ?_, ?_, ?_⟩
  · intro specs t
    refine ⟨specs.filter (fun sp => decide (t ∈ sp.tags)), rfl, ?_, List.filter_sublist _, ?_⟩
    · show Specs.getitem (specs.filter (fun sp => decide (t ∈ sp.tags))) (.tagIdx t)
        = Except.ok (Sum.inl (specs.filter (fun sp => decide (t ∈ sp.tags))))
      simp only [Specs.getitem]
      rw [List.filter_filter]
      simp
    · intro s
      rw [List.mem_filter]
      simp
  · intro specs cls
    refine ⟨_, rfl, List.filter_sublist _, ?_⟩
    intro s
    rw [List.mem_filter]
  · intro specs cls
    refine ⟨_, rfl, List.filter_sublist _, ?_⟩
    intro s
    rw [List.mem_filter]
  · intro specs pat r hr
    refine ⟨specs.filter (fun sp => fullmatch r sp.path.render.toList), ?_,
      List.filter_sublist _, ?_⟩
    · show Specs.getitem specs (.strpath pat) = _
      simp only [Specs.getitem]
      rw [hr]
    · intro s
      rw [List.mem_filter]

/-- C10: `Specs.__call__` always returns a collection: when `__getitem__`
selects a single spec (an integer index), the call wraps it into a
one-element collection; when it selects a collection, the call returns it
unchanged; an error propagates unchanged. -/
theorem call_always_collection : ∀ (specs : List PSpec) (index : SelIndex),
    (∀ sp, Specs.getitem specs index = .ok (.inr sp) → Specs.call specs index = .ok [sp])
    ∧ (∀ l, Specs.getitem specs index = .ok (.inl l) → Specs.call specs index = .ok l)
    ∧ (∀ e, Specs.getitem specs index = .error e → Specs.call specs index = .error e)
    ∧ (∀ (i : Int) sp, pyGet specs i = .ok sp →
        Specs.call specs (.intIdx i) = .ok [sp]) := by
  intro specs index
  refine ⟨?_, ?_, ?_, ?_⟩
  · intro sp h
    unfold Specs.call
    rw [h]
  · intro l h
    unfold Specs.call
    rw [h]
  · intro e h
    unfold Specs.call
    rw [h]
  · intro i sp h
    unfold Specs.call
    rw [show Specs.getitem specs (.intIdx i) = (pyGet specs i).map Sum.inr from rfl, h]
    rfl

/-- Whether a spec's data is a specifier object (what the
`Data(Specifier, type=True)` selector tests via `isinstance`). -/
def SSpec.isSpecData (s : SSpec) : Bool :=
  s.data.mro.contains "Specifier"

theorem smatmul_dataSpecifierSel (s : SSpec) :
    smatmul dataSpecifierSel s = .ok s.isSpecData := rfl

theorem isSpecData_vspec (s : SSpec) (sp : SpecifierV) :
    (SSpec.mk (.vspec sp) s.id s.name s.tags s.type).isSpecData = true := by
  unfold SSpec.isSpecData SVal.mro
  cases sp <;> rfl

theorem isSpecData_cases (s : SSpec) :
    s.isSpecData = (match s.data with | .vspec _ => true | .pv _ => false) := by
  unfold SSpec.isSpecData
  cases hd : s.data with
  | pv p => cases p <;> rfl
  | vspec sp => cases sp <;> rfl

theorem filterEx_dataSpecifierSel (g : List SSpec) :
    filterEx (smatmul dataSpecifierSel) g =
      .ok (g.filter (fun s => s.isSpecData)) := by
  induction g with
  | nil => rfl
  | cons s t ih =>
    show (do
      let b ← smatmul dataSpecifierSel s
      let r ← filterEx (smatmul dataSpecifierSel) t
      Except.ok (if b then s :: r else r)) = _
    rw [smatmul_dataSpecifierSel, ih]
    show Except.ok (if s.isSpecData then s :: t.filter _ else t.filter _) = _
    rw [List.filter_cons]

theorem groupKeys_const (k : String) : ∀ (l : List SSpec) (ks : List String),
    (∀ s ∈ l, s.id = k) → ks.contains k = true →
    l.foldl (fun ks s => if ks.contains s.id then ks else ks ++ [s.id]) ks = ks := by
  intro l
  induction l with
  | nil => intro ks _ _; rfl
  | cons s t ih =>
    intro ks hall hk
    have hs : s.id = k := hall s (.head _)
    rw [List.foldl_cons, show (if ks.contains s.id then ks else ks ++ [s.id]) = ks from by
      rw [hs, if_pos hk]]
    exact ih ks (fun x hx => hall x (.tail _ hx)) hk

theorem groupbyId_single (m : SSpec) (rest : List SSpec)
    (hall : ∀ s ∈ (m :: rest), s.id = m.id) :
    groupbyId (m :: rest) = [m :: rest] := by
  unfold groupbyId groupKeys
  rw [List.foldl_cons]
  rw [show (if ([] : List String).contains m.id then ([] : List String)
      else [] ++ [m.id]) = [m.id] from rfl]
  rw [groupKeys_const m.id rest [m.id] (fun s hs => hall s (.tail _ hs)) (by simp)]
  show [(m :: rest).filter (fun s => decide (s.id = m.id))] = _
  congr 1
  apply List.filter_eq_self.mpr
  intro a ha
  exact decide_eq_true (hall a ha)

theorem subtract_cons_self (m : SSpec) (os : List SSpec) (hm : m ∉ os) :
    Specs.subtract (m :: os) os = [m] := by
  unfold Specs.subtract
  rw [List.filter_cons, if_pos (by simpa using hm)]
  have hnil : os.filter (fun s => decide (s ∉ os)) = [] := by
    rw [List.filter_eq_nil_iff]
    intro a ha
    simpa using ha
  rw [hnil]

theorem mapM_error_of_mem {α β : Type} (f : α → Except String β) (l : List α) (g : α)
    (hg : g ∈ l) (e : String) (hf : f g = .error e) :
    ∃ er, l.mapM f = .error er := by
  induction l with
  | nil => cases hg
  | cons a t ih =>
    rw [List.mapM_cons]
    rcases List.mem_cons.mp hg with rfl | hg2
    · rw [hf]
      exact ⟨e, rfl⟩
    · cases hfa : f a with
      | error e2 => exact ⟨e2, rfl⟩
      | ok x =>
        obtain ⟨er, her⟩ := ih hg2
        refine ⟨er, ?_⟩
        simp only [List.mapM] at her
        simp [hfa, her]
        rfl

theorem mapM_singleton {α β : Type} (f : α → Except String β) (x : α) (b : β)
    (hf : f x = .ok b) : [x].mapM f = .ok [b] := by
  simp [List.mapM, List.mapM.loop, hf]

theorem subtract_filterSpec (g : List SSpec) :
    Specs.subtract g (g.filter (fun (s : SSpec) => s.isSpecData)) =
      g.filter (fun (s : SSpec) => !s.isSpecData) := by
  unfold Specs.subtract
  apply List.filter_congr
  intro a ha
  by_cases hp : a.isSpecData = true
  · have hmem : a ∈ g.filter (fun (s : SSpec) => s.isSpecData) :=
      List.mem_filter.mpr ⟨ha, hp⟩
    simp [hmem, hp]
  · have hmem : a ∉ g.filter (fun (s : SSpec) => s.isSpecData) := fun hc =>
      hp ((List.mem_filter.mp hc).2)
    simp [hmem, hp]

theorem mergeGroup_eval (g : List SSpec) (m : SSpec)
    (hfil : g.filter (fun (s : SSpec) => !s.isSpecData) = [m]) :
    (do
      let specifiers ← filterEx (smatmul dataSpecifierSel) g
      match Specs.subtract g specifiers with
      | [main] => Except.ok (specifiers.foldl (fun (mm sp : SSpec) =>
          match sp.data with
          | SVal.vspec spv => sapply spv mm
          | _ => mm) main)
      | _ => Except.error "Cannot identify main dataspec to merge.")
    = .ok ((g.filter (fun (s : SSpec) => s.isSpecData)).foldl (fun (mm sp : SSpec) =>
        match sp.data with
        | SVal.vspec spv => sapply spv mm
        | _ => mm) m) := by
  rw [filterEx_dataSpecifierSel]
  show (match Specs.subtract g (g.filter (fun (s : SSpec) => s.isSpecData)) with
    | [main] => Except.ok ((g.filter (fun (s : SSpec) => s.isSpecData)).foldl
        (fun (mm sp : SSpec) =>
          match sp.data with
          | SVal.vspec spv => sapply spv mm
          | _ => mm) main)
    | _ => Except.error "Cannot identify main dataspec to merge.") = _
  rw [subtract_filterSpec, hfil]

theorem mapM_ok_length {α β : Type} (f : α → Except String β) :
    ∀ (l : List α) (out : List β), l.mapM f = .ok out → out.length = l.length := by
  intro l
  induction l with
  | nil =>
    intro out h
    injection h with h2
    rw [← h2]
    rfl
  | cons a t ih =>
    intro out h
    rw [List.mapM_cons] at h
    cases hfa : f a with
    | error e =>
      rw [hfa] at h
      exact absurd h (by intro hh; exact Except.noConfusion hh)
    | ok x =>
      rw [hfa] at h
      simp only [List.mapM] at h ih
      cases hmt : List.mapM.loop f t [] with
      | error e =>
        rw [hmt] at h
        exact absurd h (by intro hh; exact Except.noConfusion hh)
      | ok xs =>
        rw [hmt] at h
        injection h with h2
        rw [← h2]
        simp [ih xs hmt]

/-- C2: in an identifier group made of exactly one main spec `m` (its
data is not a specifier; the rest have specifier data), `merge()` yields
exactly the one spec obtained by folding the overrides into `m` in group
order; a `Data("K")` override makes the resulting spec's (still at the
same id) data equal `"K"`; a successful `merge()` returns exactly one
spec per identifier group; and whenever some group does not have exactly
one candidate main spec, `merge()` raises `ValueError`. -/
theorem merge_folds_overrides :
    (∀ (l : List SSpec) (m : SSpec),
      (∀ s ∈ l, s.id = m.id) →
      l.filter (fun (s : SSpec) => !s.isSpecData) = [m] →
      Specs.merge l =
        .ok [(l.filter (fun (s : SSpec) => s.isSpecData)).foldl (fun (mm sp : SSpec) =>
          match sp.data with
          | SVal.vspec spv => sapply spv mm
          | _ => mm) m])
    ∧ (∀ (m : SSpec) (v : PVal),
      m.isSpecData = false → normpath m.id = m.id → m.tags.eraseDups = m.tags →
      Specs.merge [m, { m with data := .vspec (.sdata v false false) }] =
        .ok [{ m with data := .pv v }])
    ∧ (∀ (specs out : List SSpec), Specs.merge specs = .ok out →
      out.length = (groupbyId specs).length)
    ∧ (∀ (specs : List SSpec) (g : List SSpec), g ∈ groupbyId specs →
      (Specs.subtract g (g.filter (fun (s : SSpec) => s.isSpecData))).length ≠ 1 →
      ∃ e, Specs.merge specs = .error e) := by
  have main : ∀ (l : List SSpec) (m : SSpec),
      (∀ s ∈ l, s.id = m.id) →
      l.filter (fun (s : SSpec) => !s.isSpecData) = [m] →
      Specs.merge l =
        .ok [(l.filter (fun (s : SSpec) => s.isSpecData)).foldl (fun (mm sp : SSpec) =>
          match sp.data with
          | SVal.vspec spv => sapply spv mm
          | _ => mm) m] := by
    intro l m hall hfil
    have hm : m ∈ l := by
      have hmem : m ∈ l.filter (fun (s : SSpec) => !s.isSpecData) := by
        rw [hfil]
        exact .head _
      exact (List.mem_filter.mp hmem).1
    cases hl : l with
    | nil =>
      rw [hl] at hm
      cases hm
    | cons h0 rest =>
      rw [← hl]
      unfold Specs.merge
      have hgrp : groupbyId l = [l] := by
        rw [hl]
        apply groupbyId_single
        intro s hs
        rw [hall s (hl ▸ hs), hall h0 (hl ▸ List.Mem.head _)]
      rw [hgrp]
      exact mapM_singleton _ _ _ (mergeGroup_eval l m hfil)
  refine ⟨main, ?_, ?_, ?_⟩
  · intro m v hm hid htags
    have hfil : ([m, { m with data := .vspec (.sdata v false false) }].filter
        (fun (s : SSpec) => !s.isSpecData)) = [m] := by
      have h2 : ({ m with data := .vspec (.sdata v false false) } : SSpec).isSpecData
          = true := isSpecData_vspec m _
      simp [List.filter, hm, h2]
    have happ := main [m, { m with data := .vspec (.sdata v false false) }] m
      (by
        intro s hs
        rcases List.mem_cons.mp hs with rfl | hs2
        · rfl
        · rw [List.mem_singleton] at hs2
          subst hs2
          rfl)
      hfil
    rw [happ]
    have hfil2 : ([m, { m with data := .vspec (.sdata v false false) }].filter
        (fun (s : SSpec) => s.isSpecData)) =
        [{ m with data := .vspec (.sdata v false false) }] := by
      have h2 : ({ m with data := .vspec (.sdata v false false) } : SSpec).isSpecData
          = true := isSpecData_vspec m _
      simp [List.filter, hm, h2]
    rw [hfil2]
    show Except.ok [sapply (.sdata v false false) m] = _
    unfold sapply SSpec.postInit
    cases m with
    | mk d i n tg ty =>
      simp only at hid htags ⊢
      rw [hid, htags]
  · intro specs out h
    unfold Specs.merge at h
    exact mapM_ok_length _ _ _ h
  · intro specs g hg hlen
    unfold Specs.merge
    apply mapM_error_of_mem _ _ g hg "Cannot identify main dataspec to merge."
    show (do
      let specifiers ← filterEx (smatmul dataSpecifierSel) g
      match Specs.subtract g specifiers with
      | [main] => Except.ok (specifiers.foldl (fun (mm sp : SSpec) =>
          match sp.data with
          | SVal.vspec spv => sapply spv mm
          | _ => mm) main)
      | _ => Except.error "Cannot identify main dataspec to merge.") = _
    rw [filterEx_dataSpecifierSel]
    show (match Specs.subtract g (g.filter (fun (s : SSpec) => s.isSpecData)) with
      | [main] => Except.ok ((g.filter (fun (s : SSpec) => s.isSpecData)).foldl
          (fun (mm sp : SSpec) =>
            match sp.data with
            | SVal.vspec spv => sapply spv mm
            | _ => mm) main)
      | _ => Except.error "Cannot identify main dataspec to merge.") = _
    cases hsub : Specs.subtract g (g.filter (fun (s : SSpec) => s.isSpecData)) with
    | nil => rfl
    | cons x xs =>
      cases xs with
      | nil =>
        rw [hsub] at hlen
        simp at hlen
      | cons y t => rfl

/-- Witness for C2: merging the main spec at `/temp/units` (data
`"deg C"`) with a sibling `Data("K")` override yields exactly one spec at
`/temp/units` whose data is `"K"`. -/
theorem merge_folds_overrides_witness :
    Specs.merge
      [⟨.pv (.vstr "deg C"), "/temp/units", .vstr "units", ["attr"], .vcls "str" ["object"]⟩,
       ⟨.vspec (.sdata (.vstr "K") false false), "/temp/units", .vstr "units", ["attr"],
         .vcls "str" ["object"]⟩] =
      .ok [⟨.pv (.vstr "K"), "/temp/units", .vstr "units", ["attr"], .vcls "str" ["object"]⟩] :=
  merge_folds_overrides.2.1
    ⟨.pv (.vstr "deg C"), "/temp/units", .vstr "units", ["attr"], .vcls "str" ["object"]⟩
    (.vstr "K") (by decide) (by decide) (by decide)

/-- C7: when more than one override annotation of the same specifier kind
is present at one node (e.g. two distinct `ID(...)` annotations),
specifier resolution fails with `AmbiguousSpecifier`. -/
theorem ambiguous_specifier (anns : List SpecifierV) (k : String)
    (hk : 2 ≤ (anns.filter (fun a => a.clsName = k)).length) :
    find_specifiers anns = .error "AmbiguousSpecifier" := by
  unfold find_specifiers
  rw [if_pos]
  have hne : anns.filter (fun a => a.clsName = k) ≠ [] := by
    intro h
    rw [h] at hk
    simp at hk
  obtain ⟨a, ha⟩ := List.exists_mem_of_ne_nil _ hne
  have hmem : a ∈ anns := (List.mem_filter.mp ha).1
  have hcls : a.clsName = k := by
    have := (List.mem_filter.mp ha).2
    simpa using this
  apply List.any_eq_true.mpr
  refine ⟨a, hmem, ?_⟩
  rw [hcls]
  exact decide_eq_true hk

/-- Witness for C7: two distinct `ID(...)` override annotations raise
`AmbiguousSpecifier`. -/
theorem ambiguous_specifier_witness :
    find_specifiers [.sid "/a" false false, .sid "/b" false false] =
      .error "AmbiguousSpecifier" :=
  ambiguous_specifier [.sid "/a" false false, .sid "/b" false false] "ID" (by decide)
